import Mathlib

/-!
# StripJuliaAddrspaces: type remapper and module rewriter

A shallow embedding of `src/llvm-strip-addrspaces.cpp`.

* `AddrspaceStripper` has three overloads of `remapType`, embedded as
  `remapType` (on `Type*`), `remapPointerType` (on `PointerType*`) and
  `remapFunctionType` (on `FunctionType*`).
* `StripJuliaAddrspaces::runOnModule` is embedded as `runOnModule`, built from
  the analyze-and-clone loop (`analyzeLoop`, one iteration is `analyzeFunction`)
  and the commit loop (`commitReplacement`).

The predicate `isSpecialAS` and the constant `AddressSpace::Generic` come from a
header that is not part of the sources, and the name-uniquing policy of the host
symbol table is external: the three are the fields of `Host`.  The host IR
operations the pass calls (`Function::Create`, `setName`, `CloneFunctionInto`,
`replaceAllUsesWith`, `eraseFromParent`) are modelled on explicit module states.
-/

namespace StripJuliaAddrspaces

/-! ## Environment -/

/-- Environment of the pass: the address-space predicate, the generic address
space, and the policy by which a symbol table picks a name that is not taken. -/
structure Host where
  isSpecialAS : Nat → Bool
  Generic : Nat
  makeUniqueName : List String → String → String

/-! ## IR types -/

/-- IR types, identified by their shape: leaves, pointers with an address space,
function types, and the aggregates (array, vector, literal struct, named struct). -/
inductive IRType where
  | void
  | integer (bits : Nat)
  | floating (kind : Nat)
  | pointer (elementType : IRType) (addressSpace : Nat)
  | function (returnType : IRType) (params : List IRType) (isVarArg : Bool)
  | array (elementType : IRType) (numElements : Nat)
  | vector (elementType : IRType) (numElements : Nat)
  | struct (elements : List IRType) (isPacked : Bool)
  | named (name : String)
  deriving Repr

mutual
/-- Structural equality test on IR types (types are interned, so pointer equality
of the source is structural equality). -/
def IRType.beq : IRType → IRType → Bool
  | .void, .void => true
  | .integer a, .integer b => a == b
  | .floating a, .floating b => a == b
  | .pointer e a, .pointer e2 a2 => IRType.beq e e2 && a == a2
  | .function r ps v, .function r2 ps2 v2 =>
    IRType.beq r r2 && IRType.beqList ps ps2 && v == v2
  | .array e n, .array e2 n2 => IRType.beq e e2 && n == n2
  | .vector e n, .vector e2 n2 => IRType.beq e e2 && n == n2
  | .struct es p, .struct es2 p2 => IRType.beqList es es2 && p == p2
  | .named a, .named b => a == b
  | _, _ => false
/-- Structural equality test on lists of IR types. -/
def IRType.beqList : List IRType → List IRType → Bool
  | [], [] => true
  | x :: xs, y :: ys => IRType.beq x y && IRType.beqList xs ys
  | _, _ => false
end

mutual
theorem IRType.beq_iff : ∀ (a b : IRType), IRType.beq a b = true ↔ a = b
  | .void, b => by cases b <;> simp [IRType.beq]
  | .integer _, b => by cases b <;> simp [IRType.beq]
  | .floating _, b => by cases b <;> simp [IRType.beq]
  | .pointer e _, b => by cases b <;> simp [IRType.beq, IRType.beq_iff e]
  | .function r ps _, b => by
    cases b <;> simp [IRType.beq, IRType.beq_iff r, IRType.beqList_iff ps, and_assoc]
  | .array e _, b => by cases b <;> simp [IRType.beq, IRType.beq_iff e]
  | .vector e _, b => by cases b <;> simp [IRType.beq, IRType.beq_iff e]
  | .struct es _, b => by cases b <;> simp [IRType.beq, IRType.beqList_iff es]
  | .named _, b => by cases b <;> simp [IRType.beq]
theorem IRType.beqList_iff : ∀ (a b : List IRType), IRType.beqList a b = true ↔ a = b
  | [], b => by cases b <;> simp [IRType.beqList]
  | x :: xs, b => by cases b <;> simp [IRType.beqList, IRType.beq_iff x, IRType.beqList_iff xs]
end

instance : DecidableEq IRType := fun a b => decidable_of_iff _ (IRType.beq_iff a b)

/-- A pointer type: `getElementType()` and `getAddressSpace()`. -/
structure PointerType where
  elementType : IRType
  addressSpace : Nat
  deriving DecidableEq, Repr

/-- A function type: `getReturnType()`, the parameter types, `isVarArg()`. -/
structure FunctionType where
  returnType : IRType
  params : List IRType
  isVarArg : Bool
  deriving DecidableEq, Repr

/-- A pointer type seen as a type. -/
def PointerType.toType (T : PointerType) : IRType := .pointer T.elementType T.addressSpace

/-- A function type seen as a type. -/
def FunctionType.toType (T : FunctionType) : IRType :=
  .function T.returnType T.params T.isVarArg

/-- Number of parameters, `getNumParams()`. -/
def FunctionType.getNumParams (T : FunctionType) : Nat := T.params.length

/-- The i-th parameter type, `getParamType(i)`. -/
def FunctionType.getParamType (T : FunctionType) (i : Fin T.getNumParams) : IRType :=
  T.params.get i

/-- Whether a type is a pointer type, the test of `dyn_cast<PointerType>`. -/
def IRType.isPointerTy : IRType → Bool
  | .pointer _ _ => true
  | _ => false

/-! ## AddrspaceStripper -/

/-- `AddrspaceStripper::remapType(Type*)`, lines 27-35: a pointer type goes to the
`PointerType` overload (lines 37-43, whose body is the first branch here, with
its recursive call on the element type); every other type is returned as it is. -/
def remapType (H : Host) : IRType → IRType
  | .pointer elementType addressSpace =>
    let ElT := remapType H elementType
    if H.isSpecialAS addressSpace then .pointer ElT H.Generic
    else .pointer ElT addressSpace
  | SrcTy => SrcTy

/-- `AddrspaceStripper::remapType(PointerType*)`, lines 37-43. -/
def remapPointerType (H : Host) (SrcTy : PointerType) : PointerType :=
  let ElT := remapType H SrcTy.elementType
  if H.isSpecialAS SrcTy.addressSpace then { elementType := ElT, addressSpace := H.Generic }
  else { elementType := ElT, addressSpace := SrcTy.addressSpace }

/-- `AddrspaceStripper::remapType(FunctionType*)`, lines 45-54: the return type
and, index by index, each parameter type go through `remapType(Type*)`. -/
def remapFunctionType (H : Host) (SrcTy : FunctionType) : FunctionType :=
  let NewRT := remapType H SrcTy.returnType
  let NewParams := List.ofFn (fun i : Fin SrcTy.getNumParams => remapType H (SrcTy.getParamType i))
  { returnType := NewRT, params := NewParams, isVarArg := SrcTy.isVarArg }

/-! ## Predicates on types used by the statements -/

mutual
/-- Some pointer type occurring in the type, at any depth (pointees, function
return and parameter types, aggregate members), has a special address space. -/
def IRType.hasSpecialPointer (H : Host) : IRType → Bool
  | .pointer e a => H.isSpecialAS a || IRType.hasSpecialPointer H e
  | .function r ps _ => IRType.hasSpecialPointer H r || IRType.hasSpecialPointerList H ps
  | .array e _ => IRType.hasSpecialPointer H e
  | .vector e _ => IRType.hasSpecialPointer H e
  | .struct es _ => IRType.hasSpecialPointerList H es
  | _ => false
/-- Some type of the list has a pointer in a special address space. -/
def IRType.hasSpecialPointerList (H : Host) : List IRType → Bool
  | [] => false
  | T :: Ts => IRType.hasSpecialPointer H T || IRType.hasSpecialPointerList H Ts
end

mutual
/-- The type is built only from pointer types, function types and leaf types
that are not aggregates. -/
def IRType.noAggregate : IRType → Bool
  | .void => true
  | .integer _ => true
  | .floating _ => true
  | .pointer e _ => IRType.noAggregate e
  | .function r ps _ => IRType.noAggregate r && IRType.noAggregateList ps
  | _ => false
/-- Every type of the list is built without aggregates. -/
def IRType.noAggregateList : List IRType → Bool
  | [] => true
  | T :: Ts => IRType.noAggregate T && IRType.noAggregateList Ts
end

/-- The type is a chain of pointers ending in a leaf that is neither an aggregate
nor a function type. -/
def IRType.isPointerChain : IRType → Bool
  | .void => true
  | .integer _ => true
  | .floating _ => true
  | .pointer e _ => IRType.isPointerChain e
  | _ => false

/-! ## Module states -/

/-- Linkage kinds of a global value. -/
inductive Linkage where
  | ExternalLinkage
  | AvailableExternallyLinkage
  | LinkOnceAnyLinkage
  | LinkOnceODRLinkage
  | WeakAnyLinkage
  | WeakODRLinkage
  | AppendingLinkage
  | InternalLinkage
  | PrivateLinkage
  | ExternalWeakLinkage
  | CommonLinkage
  deriving DecidableEq, Repr

/-- A formal argument of a function: its name and type. -/
structure Argument where
  name : String
  type : IRType
  deriving DecidableEq, Repr

/-- A value an instruction can refer to. Functions, arguments and instructions are
objects with an identity: a function is named by its identity, an argument or
instruction by the identity of its function and its position in it. -/
inductive Value where
  | function (F : Nat)
  | argument (parent : Nat) (argNo : Nat)
  | instruction (parent : Nat) (index : Nat)
  | constant (type : IRType) (payload : Nat)
  deriving DecidableEq, Repr

/-- An instruction: opcode, result type, operands. -/
structure Instruction where
  opcode : Nat
  type : IRType
  operands : List Value
  deriving DecidableEq, Repr

/-- A function of a module. The field `id` is the identity of the function object
(the `Function*` of the source); `type` is `getFunctionType()`. -/
structure Function where
  id : Nat
  name : String
  linkage : Linkage
  type : FunctionType
  args : List Argument
  body : List Instruction
  deriving DecidableEq, Repr

/-- A module: its function list, in order. -/
structure Module where
  functions : List Function
  deriving DecidableEq, Repr

/-- The value map of one clone operation (`ValueToValueMapTy`): the newest entry
for a key comes first. -/
abbrev ValueMap := List (Value × Value)

/-- The replacement worklist (`Replacements`): pairs of the identity of an original
function and the identity of its clone, in the order they were pushed. -/
abbrev Replacements := List (Nat × Nat)

/-! ## Host IR operations -/

/-- Modelled from the spec: the host symbol table (not in the sources). A value
asking for the empty name stays unnamed; a name that is free is given as asked;
a name that is taken is replaced by the host policy `makeUniqueName` (the
"name-ownership rules" of the spec). -/
def createValueName (H : Host) (taken : List String) (N : String) : String :=
  if N = "" then "" else if N ∈ taken then H.makeUniqueName taken N else N

/-- Modelled from the spec: allocation of a new function object (not in the
sources). Its identity differs from the identity of every function of the module. -/
def Module.freshId (M : Module) : Nat := (M.functions.map (fun G => G.id)).foldr max 0 + 1

/-- Modelled from the spec: access through a `Function*` (not in the sources):
the function object of identity `F` is replaced by `f` of it. -/
def Module.updateFunction (M : Module) (F : Nat) (f : Function → Function) : Module :=
  { functions := M.functions.map (fun G => if G.id = F then f G else G) }

/-- Modelled from the spec: `F->getName()` through a `Function*` (not in the sources). -/
def Module.getName (M : Module) (F : Nat) : String :=
  match M.functions.find? (fun G => G.id == F) with
  | some G => G.name
  | none => ""

/-- Modelled from the spec: the host's `Function::Create(Ty, Linkage, Name, Parent)`
(not in the sources): "create a new function value with type NewFTy, same linkage
and name-ownership rules as F, inserted into the same module". The new function
has one unnamed argument per parameter type and no body, and is put at the end
of the function list. Returns the module and the identity of the new function. -/
def Function.Create (H : Host) (Ty : FunctionType) (L : Linkage) (N : String) (M : Module) :
    Module × Nat :=
  let NewF : Function :=
    { id := M.freshId
      name := createValueName H (M.functions.map (fun G => G.name)) N
      linkage := L
      type := Ty
      args := Ty.params.map (fun T => { name := "", type := T })
      body := [] }
  ({ functions := M.functions ++ [NewF] }, NewF.id)

/-- Modelled from the spec: the host's `setName` on a function (not in the
sources). Nothing happens when the function already has that name; otherwise the
name is taken from the symbol table of the module, which holds the names of the
other functions. -/
def Module.setName (H : Host) (M : Module) (F : Nat) (N : String) : Module :=
  let taken := (M.functions.filter (fun G => G.id != F)).map (fun G => G.name)
  M.updateFunction F (fun G => if G.name = N then G else { G with name := createValueName H taken N })

/-- Modelled from the spec: the host's `setName` on the argument at position `i`
(not in the sources), with the names of the other arguments as the taken names. -/
def Function.setArgName (H : Host) (G : Function) (i : Nat) (N : String) : Function :=
  match G.args[i]? with
  | none => G
  | some A =>
    if A.name = N then G
    else
      let taken := (G.args.eraseIdx i).map (fun B => B.name)
      { G with args := G.args.set i { A with name := createValueName H taken N } }

/-- Modelled from the spec: the value mapper of the cloning facility (not in the
sources), run without module-level changes and with the type remapper as its
hook: a value with an entry in the value map goes to that entry; a function is
left as it is; an instruction of the source function goes to the instruction at
the same position of the destination; a constant gets its type remapped. -/
def mapValue (H : Host) (VMap : ValueMap) (OldFunc NewFunc : Nat) (V : Value) : Value :=
  match VMap.lookup V with
  | some W => W
  | none =>
    match V with
    | .function G => .function G
    | .argument p i => .argument p i
    | .instruction p i => if p = OldFunc then .instruction NewFunc i else .instruction p i
    | .constant T c => .constant (remapType H T) c

/-- Modelled from the spec: one cloned instruction (not in the sources): same
opcode, result type through the type-remap hook, operands through the value map. -/
def cloneInstruction (H : Host) (VMap : ValueMap) (OldFunc NewFunc : Nat) (I : Instruction) :
    Instruction :=
  { opcode := I.opcode
    type := remapType H I.type
    operands := I.operands.map (mapValue H VMap OldFunc NewFunc) }

/-- Modelled from the spec: the host's `CloneFunctionInto(NewFunc, OldFunc, VMap,
ModuleLevelChanges = false, Returns, "", NULL, &TypeMapper)` (not in the sources):
"Clone F's body into NewF using the generic cloning facility, supplying the
parameter value-map and this Type Remapper as the type-rewrite hook for every
type reference inside instructions". -/
def CloneFunctionInto (H : Host) (M : Module) (NewFunc : Nat) (OldFunc : Function)
    (VMap : ValueMap) : Module :=
  M.updateFunction NewFunc (fun G =>
    { G with body := G.body ++ OldFunc.body.map (cloneInstruction H VMap OldFunc.id NewFunc) })

/-- Redirection of one operand by `replaceAllUsesWith`: a use of the function
`Old` becomes a use of `New`. -/
def Value.replaceUse (Old New : Nat) : Value → Value
  | .function G => if G = Old then .function New else .function G
  | V => V

/-- Redirection of the operands of every instruction of a body. -/
def replaceUsesInBody (Old New : Nat) (body : List Instruction) : List Instruction :=
  body.map (fun I => { I with operands := I.operands.map (Value.replaceUse Old New) })

/-- Redirection of the operands of every instruction of a function. -/
def Function.replaceUses (Old New : Nat) (G : Function) : Function :=
  { G with body := replaceUsesInBody Old New G.body }

/-- Modelled from the spec: the host's `F->replaceAllUsesWith(NewF)` (not in the
sources): "Redirect every existing use of F (as a called/referenced value
anywhere in the module) to NewF". -/
def Module.replaceAllUsesWith (M : Module) (Old New : Nat) : Module :=
  { functions := M.functions.map (Function.replaceUses Old New) }

/-- Modelled from the spec: the host's `F->eraseFromParent()` (not in the sources):
"Unlink and destroy F". -/
def Module.eraseFromParent (M : Module) (F : Nat) : Module :=
  { functions := M.functions.filter (fun G => G.id != F) }

/-! ## StripJuliaAddrspaces::runOnModule -/

/-- The argument loop of `runOnModule`, lines 72-76: with `I` running over the
arguments of `F` and `DestI` over the arguments of `NewF`, the name of `I` is
set on `DestI` and the pair is entered in the value map. -/
def copyArgumentNames (H : Host) (F : Function) (NewF : Nat) :
    List Argument → Nat → Module × ValueMap → Module × ValueMap
  | [], _, st => st
  | I :: rest, DestI, (M, VMap) =>
    copyArgumentNames H F NewF rest (DestI + 1)
      (M.updateFunction NewF (fun G => G.setArgName H DestI I.name),
       (Value.argument F.id DestI, Value.argument NewF DestI) :: VMap)

/-- The body of the first loop of `runOnModule`, lines 61-85, for the function `F`
the iterator stands on. -/
def analyzeFunction (H : Host) (M : Module) (R : Replacements) (F : Function) :
    Module × Replacements :=
  let FTy := F.type
  let NewFTy := remapFunctionType H FTy
  if FTy ≠ NewFTy then
    let (M1, NewF) := Function.Create H NewFTy F.linkage F.name M
    let (M2, VMap) := copyArgumentNames H F NewF F.args 0 (M1, [])
    let M3 := CloneFunctionInto H M2 NewF F VMap
    (M3, R ++ [(F.id, NewF)])
  else (M, R)

/-- The first loop of `runOnModule`, lines 60-86: `for (auto &F : M)`. The
iterator is the position `i` in the function list of the current module, so that
functions appended during the loop are visited too; the loop ends when the
position is past the end of the list. The first argument bounds the number of
iterations; `none` means the bound was reached. -/
def analyzeLoop (H : Host) : Nat → Nat → Module → Replacements → Option (Module × Replacements)
  | 0, _, _, _ => none
  | fuel + 1, i, M, R =>
    match M.functions[i]? with
    | none => some (M, R)
    | some F =>
      let (M1, R1) := analyzeFunction H M R F
      analyzeLoop H fuel (i + 1) M1 R1

/-- Phase 1 of `runOnModule`: the first loop from the first function, with an
empty worklist. -/
def analyze (H : Host) (fuel : Nat) (M : Module) : Option (Module × Replacements) :=
  analyzeLoop H fuel 0 M []

/-- The body of the second loop of `runOnModule`, lines 89-96. -/
def commitReplacement (H : Host) (M : Module) (Fs : Nat × Nat) : Module :=
  let F := Fs.1
  let NewF := Fs.2
  let NewFName := M.getName F
  let M1 := M.setName H F ""
  let M2 := M1.setName H NewF NewFName
  let M3 := M2.replaceAllUsesWith F NewF
  M3.eraseFromParent F

/-- Phase 2 of `runOnModule`, lines 88-97: the second loop over the worklist. -/
def commit (H : Host) (M : Module) (R : Replacements) : Module :=
  R.foldl (commitReplacement H) M

/-- `StripJuliaAddrspaces::runOnModule`, lines 57-100: the module after the pass
and the returned flag `Replacements.size() > 0`. -/
def runOnModule (H : Host) (fuel : Nat) (M : Module) : Option (Module × Bool) :=
  match analyze H fuel M with
  | none => none
  | some (M1, R) => some (commit H M1 R, decide (R.length > 0))

/-! ## The result of the first loop, function by function

The definitions below describe, on the function objects themselves, what the
first loop of `runOnModule` builds; the lemmas relate them to `analyzeLoop`. -/

/-- The argument loop of lines 72-76 seen on the new function object alone. -/
def copyArgs (H : Host) : List Argument → Nat → Function → Function
  | [], _, G => G
  | I :: rest, DestI, G => copyArgs H rest (DestI + 1) (G.setArgName H DestI I.name)

/-- The value map the argument loop of lines 72-76 builds. -/
def argValueMap (F NewF : Nat) : List Argument → Nat → ValueMap → ValueMap
  | [], _, VMap => VMap
  | _ :: rest, DestI, VMap =>
    argValueMap F NewF rest (DestI + 1)
      ((Value.argument F DestI, Value.argument NewF DestI) :: VMap)

/-- The function object created by `Function::Create` at line 69 for `F` in `M`. -/
def createdFunction (H : Host) (M : Module) (F : Function) : Function :=
  { id := M.freshId
    name := createValueName H (M.functions.map (fun G => G.name)) F.name
    linkage := F.linkage
    type := remapFunctionType H F.type
    args := (remapFunctionType H F.type).params.map (fun T => { name := "", type := T })
    body := [] }

/-- The clone of `F` as it stands at the end of one iteration of the first loop
run in module `M`: created, arguments named, body cloned. -/
def newFunction (H : Host) (M : Module) (F : Function) : Function :=
  { copyArgs H F.args 0 (createdFunction H M F) with
    body := (copyArgs H F.args 0 (createdFunction H M F)).body ++
      F.body.map (cloneInstruction H (argValueMap F.id M.freshId F.args 0 []) F.id M.freshId) }

/-- The first loop run over a given list of functions instead of by position. -/
def analyzeList (H : Host) : List Function → Module → Replacements → Module × Replacements
  | [], M, R => (M, R)
  | F :: Fs, M, R => analyzeList H Fs (analyzeFunction H M R F).1 (analyzeFunction H M R F).2

/-- The clones the first loop appends when it visits the functions `Fs` starting
in module `M`, in the order of creation. -/
def clonesOf (H : Host) : List Function → Module → List Function
  | [], _ => []
  | F :: Fs, M =>
    if F.type ≠ remapFunctionType H F.type then
      newFunction H M F :: clonesOf H Fs { functions := M.functions ++ [newFunction H M F] }
    else clonesOf H Fs M

/-- The worklist entries the first loop pushes when it visits the functions `Fs`
starting in module `M`. -/
def worklistOf (H : Host) : List Function → Module → Replacements
  | [], _ => []
  | F :: Fs, M =>
    if F.type ≠ remapFunctionType H F.type then
      (F.id, M.freshId) :: worklistOf H Fs { functions := M.functions ++ [newFunction H M F] }
    else worklistOf H Fs M

/-- Some instruction of some function of the module has the function `F` as an
operand. -/
def Module.hasUseOf (M : Module) (F : Nat) : Bool :=
  M.functions.any (fun G => G.body.any (fun I => I.operands.contains (Value.function F)))

/-- The operand after all redirections of the worklist, in order. -/
def redirect (R : Replacements) (V : Value) : Value :=
  R.foldl (fun W p => W.replaceUse p.1 p.2) V

/-- The function with its name left out. -/
def Function.unnamed (G : Function) : Function := { G with name := "" }

/-- The function with every operand of its body redirected along the worklist. -/
def Function.redirected (R : Replacements) (G : Function) : Function :=
  { G with body := G.body.map (fun I => { I with operands := I.operands.map (redirect R) }) }

/-! ## Scenario of section 8 -/

/-- A uniquing policy for examples: the asked name, a dot, and as many digits 1
as the longest taken name is long. -/
def scenarioUniqueName (taken : List String) (N : String) : String :=
  N ++ "." ++ String.mk (List.replicate ((taken.map String.length).foldr max 0) '1')

/-- The environment of the scenarios: address space 10 is special, the generic
address space is 0. -/
def scenarioHost : Host :=
  { isSpecialAS := fun AS => AS == 10
    Generic := 0
    makeUniqueName := scenarioUniqueName }

/-- The type `i32`. -/
def i32 : IRType := .integer 32

/-- The function `foo(ptr<10,i32>) -> void` of the scenario, with a body that
uses its argument, calls `bar` and calls itself. -/
def scenarioFoo : Function :=
  { id := 0
    name := "foo"
    linkage := .ExternalLinkage
    type := { returnType := .void, params := [.pointer i32 10], isVarArg := false }
    args := [{ name := "p", type := .pointer i32 10 }]
    body := [{ opcode := 1, type := .pointer i32 10, operands := [.function 1] },
             { opcode := 2, type := .void, operands := [.function 0, .argument 0 0] }] }

/-- The function `bar() -> ptr<10,i32>` of the scenario. -/
def scenarioBar : Function :=
  { id := 1
    name := "bar"
    linkage := .InternalLinkage
    type := { returnType := .pointer i32 10, params := [], isVarArg := false }
    args := []
    body := [{ opcode := 3, type := .void, operands := [.constant (.pointer i32 10) 0] }] }

/-- The module `{foo(ptr<10,i32>)->void, bar()->ptr<10,i32>}` of the scenario. -/
def scenarioModule : Module := { functions := [scenarioFoo, scenarioBar] }

/-- The module the pass leaves for `scenarioModule`: the clones of `foo` and `bar`,
with the names and linkages of the originals, the pointers of the signatures and
of the bodies in the generic address space, and every use redirected. -/
def scenarioResult : Module :=
  { functions :=
      [{ id := 2
         name := "foo"
         linkage := .ExternalLinkage
         type := { returnType := .void, params := [.pointer i32 0], isVarArg := false }
         args := [{ name := "p", type := .pointer i32 0 }]
         body := [{ opcode := 1, type := .pointer i32 0, operands := [.function 3] },
                  { opcode := 2, type := .void, operands := [.function 2, .argument 2 0] }] },
       { id := 3
         name := "bar"
         linkage := .InternalLinkage
         type := { returnType := .pointer i32 0, params := [], isVarArg := false }
         args := []
         body := [{ opcode := 3, type := .void, operands := [.constant (.pointer i32 0) 0] }] }] }

/-- A module with one function, `baz(ptr<0,i32>) -> ptr<0,i32>`, that uses only the
address space 0 and calls itself. -/
def cleanModule : Module :=
  { functions :=
      [{ id := 0
         name := "baz"
         linkage := .ExternalLinkage
         type := { returnType := .pointer i32 0, params := [.pointer i32 0], isVarArg := false }
         args := [{ name := "q", type := .pointer i32 0 }]
         body := [{ opcode := 2, type := .pointer i32 0,
                    operands := [.function 0, .argument 0 0] }] }] }

/-! ## Shape of a type, address spaces apart -/

mutual
/-- The type with every address-space tag erased (replaced by 0), at every depth. -/
def IRType.eraseAddressSpaces : IRType → IRType
  | .pointer e _ => .pointer (IRType.eraseAddressSpaces e) 0
  | .function r ps v =>
    .function (IRType.eraseAddressSpaces r) (IRType.eraseAddressSpacesList ps) v
  | .array e n => .array (IRType.eraseAddressSpaces e) n
  | .vector e n => .vector (IRType.eraseAddressSpaces e) n
  | .struct es p => .struct (IRType.eraseAddressSpacesList es) p
  | T => T
/-- Every type of the list with its address-space tags erased. -/
def IRType.eraseAddressSpacesList : List IRType → List IRType
  | [] => []
  | T :: Ts => IRType.eraseAddressSpaces T :: IRType.eraseAddressSpacesList Ts
end

mutual
/-- The address spaces of all pointer types occurring in the type, outermost
first, in the order return type, parameters, members. -/
def IRType.addressSpaces : IRType → List Nat
  | .pointer e a => a :: IRType.addressSpaces e
  | .function r ps _ => IRType.addressSpaces r ++ IRType.addressSpacesList ps
  | .array e _ => IRType.addressSpaces e
  | .vector e _ => IRType.addressSpaces e
  | .struct es _ => IRType.addressSpacesList es
  | _ => []
/-- The address spaces of all pointer types occurring in the types of the list. -/
def IRType.addressSpacesList : List IRType → List Nat
  | [] => []
  | T :: Ts => IRType.addressSpaces T ++ IRType.addressSpacesList Ts
end

/-- Number of pointer levels before the first type that is not a pointer. -/
def IRType.pointerDepth : IRType → Nat
  | .pointer e _ => IRType.pointerDepth e + 1
  | _ => 0

/-- The first type under the pointer levels that is not a pointer. -/
def IRType.pointeeLeaf : IRType → IRType
  | .pointer e _ => IRType.pointeeLeaf e
  | T => T

/-! ## A module with a caller of a replaced function -/

/-- The function `foo(ptr<10,i32>) -> void`, a declaration without body. -/
def callerFoo : Function :=
  { id := 0
    name := "foo"
    linkage := .ExternalLinkage
    type := { returnType := .void, params := [.pointer i32 10], isVarArg := false }
    args := [{ name := "p", type := .pointer i32 10 }]
    body := [] }

/-- The function `main() -> void`, whose signature has no pointer and whose body
calls `foo`. -/
def callerMain : Function :=
  { id := 1
    name := "main"
    linkage := .ExternalLinkage
    type := { returnType := .void, params := [], isVarArg := false }
    args := []
    body := [{ opcode := 2, type := .void,
               operands := [.function 0, .constant (.pointer i32 10) 0] }] }

/-- The module `{foo(ptr<10,i32>)->void, main()->void}` in which `main` calls `foo`. -/
def callerModule : Module := { functions := [callerFoo, callerMain] }

/-- The users of the function `F` in the module: the instructions, given by the
identity of their function and their position in its body, that have `F` as an
operand, in module order. -/
def Module.usersOf (M : Module) (F : Nat) : List (Nat × Nat) :=
  M.functions.flatMap (fun G =>
    (G.body.enum.filter (fun I => I.2.operands.contains (Value.function F))).map
      (fun I => (G.id, I.1)))

/-- The module the pass leaves for `callerModule`: `main`, its call now on the
clone of `foo`, followed by that clone. -/
def callerResult : Module :=
  { functions :=
      [{ id := 1
         name := "main"
         linkage := .ExternalLinkage
         type := { returnType := .void, params := [], isVarArg := false }
         args := []
         body := [{ opcode := 2, type := .void,
                    operands := [.function 2, .constant (.pointer i32 10) 0] }] },
       { id := 2
         name := "foo"
         linkage := .ExternalLinkage
         type := { returnType := .void, params := [.pointer i32 0], isVarArg := false }
         args := [{ name := "p", type := .pointer i32 0 }]
         body := [] }] }

/-! ## Host invariants on names and identities -/

/-- The uniquing policy of the symbol table never returns a name that is taken. -/
def Host.Fresh (H : Host) : Prop :=
  ∀ (taken : List String) (N : String), H.makeUniqueName taken N ∉ taken

/-- The names of the list that are not empty are pairwise distinct (the invariant
of a symbol table; unnamed values are not in the table). -/
def namesDistinct (names : List String) : Prop :=
  (names.filter (fun N => N != "")).Nodup

instance (names : List String) : Decidable (namesDistinct names) := by
  unfold namesDistinct
  infer_instance

/-- The invariants of the host on a module: the functions are distinct objects,
the named functions have distinct names, and every function has one argument
for each parameter of its type, the named arguments having distinct names. -/
def Module.WellFormed (M : Module) : Prop :=
  (M.functions.map (fun G => G.id)).Nodup ∧
  namesDistinct (M.functions.map (fun G => G.name)) ∧
  ∀ F ∈ M.functions, F.args.length = F.type.params.length ∧
    namesDistinct (F.args.map (fun A => A.name))

instance (M : Module) : Decidable M.WellFormed := by
  unfold Module.WellFormed
  infer_instance

/-- The names taken in the symbol table when the second loop renames the clone
of the entry `p`: those of the other functions, the original being unnamed. -/
def takenAtCommit (H : Host) (M : Module) (p : Nat × Nat) : List String :=
  ((M.setName H p.1 "").functions.filter (fun G => G.id != p.2)).map (fun G => G.name)

/-- The name the function `G` has after the second loop committed the entry `p`
in the module `M`: the clone named by the entry gets what `setName` makes of the
name of the original, every other function keeps its name. -/
def committedName (H : Host) (M : Module) (p : Nat × Nat) (G : Function) : String :=
  if G.id = p.2 then
    (if G.name = M.getName p.1 then G.name
     else createValueName H (takenAtCommit H M p) (M.getName p.1))
  else G.name

/-! ## Lemmas on the type remapper -/

theorem remapType_pointer (H : Host) (E : IRType) (A : Nat) :
    remapType H (.pointer E A) =
      if H.isSpecialAS A then .pointer (remapType H E) H.Generic
      else .pointer (remapType H E) A := by
  simp [remapType]

theorem remapType_of_not_pointer (H : Host) :
    ∀ T : IRType, T.isPointerTy = false → remapType H T = T
  | .pointer _ _, h => by simp [IRType.isPointerTy] at h
  | .void, _ => rfl
  | .integer _, _ => rfl
  | .floating _, _ => rfl
  | .function _ _ _, _ => rfl
  | .array _ _, _ => rfl
  | .vector _ _, _ => rfl
  | .struct _ _, _ => rfl
  | .named _, _ => rfl

theorem remapFunctionType_params (H : Host) (S : FunctionType) :
    (remapFunctionType H S).params = S.params.map (remapType H) := by
  have h : (fun i : Fin S.getNumParams => remapType H (S.getParamType i))
      = (remapType H) ∘ S.params.get := by
    funext i
    rfl
  simp only [remapFunctionType, h]
  rw [← List.map_ofFn]
  congr 1
  exact List.ofFn_get S.params

theorem remapFunctionType_eq (H : Host) (S : FunctionType) :
    remapFunctionType H S =
      { returnType := remapType H S.returnType
        params := S.params.map (remapType H)
        isVarArg := S.isVarArg } := by
  have h := remapFunctionType_params H S
  simp only [remapFunctionType] at h ⊢
  rw [h]

theorem remapType_remapType (H : Host) :
    ∀ T : IRType, remapType H (remapType H T) = remapType H T
  | .pointer e a => by
    have ih := remapType_remapType H e
    rw [remapType_pointer]
    split
    · rw [remapType_pointer, ih]
      split <;> rfl
    · rename_i hA
      rw [remapType_pointer, ih]
      simp [hA]
  | .void => rfl
  | .integer _ => rfl
  | .floating _ => rfl
  | .function _ _ _ => rfl
  | .array _ _ => rfl
  | .vector _ _ => rfl
  | .struct _ _ => rfl
  | .named _ => rfl

theorem remapFunctionType_remapFunctionType (H : Host) (S : FunctionType) :
    remapFunctionType H (remapFunctionType H S) = remapFunctionType H S := by
  rw [remapFunctionType_eq H (remapFunctionType H S), remapFunctionType_eq H S]
  simp [remapType_remapType]

theorem remapType_of_no_special (H : Host) :
    ∀ T : IRType, T.hasSpecialPointer H = false → remapType H T = T
  | .pointer e a, h => by
    simp only [IRType.hasSpecialPointer, Bool.or_eq_false_iff] at h
    rw [remapType_pointer, remapType_of_no_special H e h.2]
    simp [h.1]
  | .void, _ => rfl
  | .integer _, _ => rfl
  | .floating _, _ => rfl
  | .function _ _ _, _ => rfl
  | .array _ _, _ => rfl
  | .vector _ _, _ => rfl
  | .struct _ _, _ => rfl
  | .named _, _ => rfl

theorem map_remapType_of_no_special (H : Host) :
    ∀ Ts : List IRType, IRType.hasSpecialPointerList H Ts = false → Ts.map (remapType H) = Ts
  | [], _ => rfl
  | T :: Ts, h => by
    simp only [IRType.hasSpecialPointerList, Bool.or_eq_false_iff] at h
    simp [remapType_of_no_special H T h.1, map_remapType_of_no_special H Ts h.2]

theorem remapFunctionType_of_no_special (H : Host) (S : FunctionType)
    (h : S.toType.hasSpecialPointer H = false) : remapFunctionType H S = S := by
  simp only [FunctionType.toType, IRType.hasSpecialPointer, Bool.or_eq_false_iff] at h
  rw [remapFunctionType_eq, remapType_of_no_special H _ h.1, map_remapType_of_no_special H _ h.2]

theorem hasSpecialPointer_remapType_chain (H : Host) (hG : H.isSpecialAS H.Generic = false) :
    ∀ T : IRType, T.isPointerChain = true → (remapType H T).hasSpecialPointer H = false
  | .pointer e a, h => by
    have ih := hasSpecialPointer_remapType_chain H hG e (by simpa [IRType.isPointerChain] using h)
    rw [remapType_pointer]
    split
    · simp [IRType.hasSpecialPointer, hG, ih]
    · rename_i hA
      simp [IRType.hasSpecialPointer, hA, ih]
  | .void, _ => rfl
  | .integer _, _ => rfl
  | .floating _, _ => rfl
  | .function _ _ _, h => by simp [IRType.isPointerChain] at h
  | .array _ _, h => by simp [IRType.isPointerChain] at h
  | .vector _ _, h => by simp [IRType.isPointerChain] at h
  | .struct _ _, h => by simp [IRType.isPointerChain] at h
  | .named _, h => by simp [IRType.isPointerChain] at h

theorem hasSpecialPointerList_map_remapType (H : Host) (hG : H.isSpecialAS H.Generic = false) :
    ∀ Ts : List IRType, (∀ T ∈ Ts, T.isPointerChain = true) →
      IRType.hasSpecialPointerList H (Ts.map (remapType H)) = false
  | [], _ => rfl
  | T :: Ts, h => by
    simp only [List.map, IRType.hasSpecialPointerList, Bool.or_eq_false_iff]
    exact ⟨hasSpecialPointer_remapType_chain H hG T (h T (by simp)),
      hasSpecialPointerList_map_remapType H hG Ts (fun U hU => h U (by simp [hU]))⟩

/-! ## Lemmas on the host operations -/

theorem le_foldr_max (l : List Nat) : ∀ x ∈ l, x ≤ l.foldr max 0 := by
  induction l with
  | nil => simp
  | cons a l ih =>
    intro x hx
    simp only [List.mem_cons] at hx
    simp only [List.foldr_cons]
    rcases hx with rfl | hx
    · exact le_max_left _ _
    · exact le_trans (ih x hx) (le_max_right _ _)

theorem Module.lt_freshId (M : Module) : ∀ G ∈ M.functions, G.id < M.freshId := by
  intro G hG
  unfold Module.freshId
  exact Nat.lt_succ_of_le (le_foldr_max _ G.id (List.mem_map_of_mem _ hG))

theorem Module.freshId_le_append (M : Module) (Ns : List Function) :
    M.freshId ≤ (Module.mk (M.functions ++ Ns)).freshId := by
  unfold Module.freshId
  simp only [List.map_append, List.foldr_append, add_le_add_iff_right]
  generalize List.foldr max 0 (List.map (fun G => G.id) Ns) = b
  induction M.functions with
  | nil => simp
  | cons a l ih =>
    simp only [List.map_cons, List.foldr_cons]
    exact max_le_max (le_refl _) ih

theorem updateFunction_append_fresh (fs : List Function) (g : Function) (k : Nat)
    (f : Function → Function) (hfs : ∀ G ∈ fs, G.id ≠ k) (hg : g.id = k) :
    Module.updateFunction { functions := fs ++ [g] } k f = { functions := fs ++ [f g] } := by
  unfold Module.updateFunction
  simp only [List.map_append, List.map_cons, List.map_nil, hg, if_true, Module.mk.injEq]
  congr 1
  conv_rhs => rw [← List.map_id fs]
  apply List.map_congr_left
  intro G hG
  simp [hfs G hG]

theorem Function.setArgName_id (H : Host) (G : Function) (i : Nat) (N : String) :
    (G.setArgName H i N).id = G.id := by
  unfold Function.setArgName
  split
  · rfl
  · split <;> rfl

theorem Function.setArgName_unchanged (H : Host) (G : Function) (i : Nat) (N : String) :
    (G.setArgName H i N).name = G.name ∧ (G.setArgName H i N).linkage = G.linkage ∧
    (G.setArgName H i N).type = G.type ∧ (G.setArgName H i N).body = G.body := by
  unfold Function.setArgName
  split
  · simp
  · split <;> simp

theorem copyArgs_id (H : Host) : ∀ (As : List Argument) (k : Nat) (G : Function),
    (copyArgs H As k G).id = G.id
  | [], _, _ => rfl
  | A :: As, k, G => by
    simp only [copyArgs]
    rw [copyArgs_id H As (k + 1), Function.setArgName_id]

theorem copyArgs_unchanged (H : Host) : ∀ (As : List Argument) (k : Nat) (G : Function),
    (copyArgs H As k G).name = G.name ∧ (copyArgs H As k G).linkage = G.linkage ∧
    (copyArgs H As k G).type = G.type ∧ (copyArgs H As k G).body = G.body
  | [], _, _ => ⟨rfl, rfl, rfl, rfl⟩
  | A :: As, k, G => by
    simp only [copyArgs]
    have h1 := copyArgs_unchanged H As (k + 1) (G.setArgName H k A.name)
    have h2 := Function.setArgName_unchanged H G k A.name
    exact ⟨h1.1.trans h2.1, h1.2.1.trans h2.2.1, h1.2.2.1.trans h2.2.2.1,
      h1.2.2.2.trans h2.2.2.2⟩

theorem copyArgumentNames_append_fresh (H : Host) (F : Function) (NewF : Nat)
    (fs : List Function) (hfs : ∀ G ∈ fs, G.id ≠ NewF) :
    ∀ (As : List Argument) (k : Nat) (g : Function) (V : ValueMap), g.id = NewF →
      copyArgumentNames H F NewF As k ({ functions := fs ++ [g] }, V) =
        ({ functions := fs ++ [copyArgs H As k g] }, argValueMap F.id NewF As k V)
  | [], _, _, _, _ => rfl
  | A :: As, k, g, V, hg => by
    simp only [copyArgumentNames, copyArgs, argValueMap]
    rw [updateFunction_append_fresh fs g NewF _ hfs hg]
    exact copyArgumentNames_append_fresh H F NewF fs hfs As (k + 1) _ _
      ((Function.setArgName_id H g k A.name).trans hg)

theorem newFunction_id (H : Host) (M : Module) (F : Function) :
    (newFunction H M F).id = M.freshId := by
  simp only [newFunction]
  rw [copyArgs_id]
  rfl

theorem newFunction_type (H : Host) (M : Module) (F : Function) :
    (newFunction H M F).type = remapFunctionType H F.type := by
  simp only [newFunction]
  rw [(copyArgs_unchanged H _ _ _).2.2.1]
  rfl

theorem newFunction_linkage (H : Host) (M : Module) (F : Function) :
    (newFunction H M F).linkage = F.linkage := by
  simp only [newFunction]
  rw [(copyArgs_unchanged H _ _ _).2.1]
  rfl

theorem newFunction_body (H : Host) (M : Module) (F : Function) :
    (newFunction H M F).body =
      F.body.map (cloneInstruction H (argValueMap F.id M.freshId F.args 0 []) F.id M.freshId) := by
  simp only [newFunction]
  rw [(copyArgs_unchanged H _ _ _).2.2.2]
  rfl

theorem newFunction_fixed (H : Host) (M : Module) (F : Function) :
    remapFunctionType H (newFunction H M F).type = (newFunction H M F).type := by
  rw [newFunction_type, remapFunctionType_remapFunctionType]

theorem analyzeFunction_of_fixed (H : Host) (M : Module) (R : Replacements) (F : Function)
    (h : remapFunctionType H F.type = F.type) : analyzeFunction H M R F = (M, R) := by
  simp [analyzeFunction, h]

theorem analyzeFunction_of_changed (H : Host) (M : Module) (R : Replacements) (F : Function)
    (h : F.type ≠ remapFunctionType H F.type) :
    analyzeFunction H M R F =
      ({ functions := M.functions ++ [newFunction H M F] }, R ++ [(F.id, M.freshId)]) := by
  have hfs : ∀ G ∈ M.functions, G.id ≠ M.freshId := fun G hG => Nat.ne_of_lt (M.lt_freshId G hG)
  simp only [analyzeFunction, h, ne_eq, not_false_eq_true, if_true, Function.Create]
  have hc := copyArgumentNames_append_fresh H F M.freshId M.functions hfs F.args 0
    (createdFunction H M F) [] rfl
  simp only [createdFunction] at hc
  rw [hc]
  simp only [CloneFunctionInto]
  rw [updateFunction_append_fresh _ _ _ _ hfs (copyArgs_id H _ _ _)]
  rfl

/-! ## Lemmas on the first loop -/

theorem getElem?_length_append_cons {α : Type} (pre : List α) (x : α) (post : List α) :
    (pre ++ x :: post)[pre.length]? = some x := by
  induction pre with
  | nil => simp
  | cons a pre ih => simpa using ih

theorem analyzeLoop_of_fixed (H : Host) : ∀ (cl pre : List Function) (M : Module)
    (R : Replacements) (fuel : Nat), M.functions = pre ++ cl →
    (∀ N ∈ cl, remapFunctionType H N.type = N.type) → cl.length + 1 ≤ fuel →
    analyzeLoop H fuel pre.length M R = some (M, R)
  | [], pre, M, R, fuel, hM, _, hfuel => by
    obtain ⟨fuel, rfl⟩ : ∃ k, fuel = k + 1 := ⟨fuel - 1, by simp at hfuel; omega⟩
    simp [analyzeLoop, hM]
  | N :: cl, pre, M, R, fuel, hM, hcl, hfuel => by
    obtain ⟨fuel, rfl⟩ : ∃ k, fuel = k + 1 := ⟨fuel - 1, by simp at hfuel; omega⟩
    have hget : M.functions[pre.length]? = some N := by
      rw [hM]
      exact getElem?_length_append_cons pre N cl
    simp only [analyzeLoop, hget]
    rw [analyzeFunction_of_fixed H M R N (hcl N (by simp))]
    have h := analyzeLoop_of_fixed H cl (pre ++ [N]) M R fuel (by simp [hM])
      (fun N2 hN2 => hcl N2 (by simp [hN2])) (by simp at hfuel ⊢; omega)
    simpa using h

theorem analyzeLoop_eq_analyzeList (H : Host) : ∀ (todo pre cl : List Function) (M : Module)
    (R : Replacements) (fuel : Nat), M.functions = pre ++ todo ++ cl →
    (∀ N ∈ cl, remapFunctionType H N.type = N.type) →
    2 * todo.length + cl.length + 1 ≤ fuel →
    analyzeLoop H fuel pre.length M R = some (analyzeList H todo M R)
  | [], pre, cl, M, R, fuel, hM, hcl, hfuel => by
    simp only [analyzeList]
    exact analyzeLoop_of_fixed H cl pre M R fuel (by simpa using hM) hcl (by simpa using hfuel)
  | F :: todo, pre, cl, M, R, fuel, hM, hcl, hfuel => by
    obtain ⟨fuel, rfl⟩ : ∃ k, fuel = k + 1 := ⟨fuel - 1, by simp at hfuel; omega⟩
    have hget : M.functions[pre.length]? = some F := by
      rw [hM, List.append_assoc]
      exact getElem?_length_append_cons pre F (todo ++ cl)
    simp only [analyzeLoop, hget, analyzeList]
    by_cases hF : remapFunctionType H F.type = F.type
    · rw [analyzeFunction_of_fixed H M R F hF]
      have h := analyzeLoop_eq_analyzeList H todo (pre ++ [F]) cl M R fuel (by simp [hM]) hcl
        (by simp at hfuel ⊢; omega)
      simpa using h
    · have hF2 : F.type ≠ remapFunctionType H F.type := fun h => hF h.symm
      rw [analyzeFunction_of_changed H M R F hF2]
      have h := analyzeLoop_eq_analyzeList H todo (pre ++ [F]) (cl ++ [newFunction H M F])
        { functions := M.functions ++ [newFunction H M F] } (R ++ [(F.id, M.freshId)]) fuel
        (by simp [hM])
        (by
          intro N hN
          simp only [List.mem_append, List.mem_singleton] at hN
          rcases hN with hN | rfl
          · exact hcl N hN
          · exact newFunction_fixed H M F)
        (by simp at hfuel ⊢; omega)
      simpa using h

theorem analyze_eq_analyzeList (H : Host) (M : Module) (fuel : Nat)
    (hfuel : 2 * M.functions.length + 1 ≤ fuel) :
    analyze H fuel M = some (analyzeList H M.functions M []) := by
  have h := analyzeLoop_eq_analyzeList H M.functions [] [] M [] fuel (by simp) (by simp)
    (by simpa using hfuel)
  simpa [analyze] using h

theorem analyzeList_eq (H : Host) : ∀ (Fs : List Function) (M : Module) (R : Replacements),
    analyzeList H Fs M R =
      ({ functions := M.functions ++ clonesOf H Fs M }, R ++ worklistOf H Fs M)
  | [], M, R => by simp [analyzeList, clonesOf, worklistOf]
  | F :: Fs, M, R => by
    simp only [analyzeList, clonesOf, worklistOf]
    by_cases hF : remapFunctionType H F.type = F.type
    · rw [analyzeFunction_of_fixed H M R F hF]
      simp only [analyzeList_eq H Fs M R, ne_eq, hF, not_true_eq_false, if_false]
    · have hF2 : F.type ≠ remapFunctionType H F.type := fun h => hF h.symm
      rw [analyzeFunction_of_changed H M R F hF2]
      simp [analyzeList_eq H Fs _ _, hF2]

/-- The functions whose type the signature remapper changes. -/
theorem worklistOf_fst (H : Host) : ∀ (Fs : List Function) (M : Module),
    (worklistOf H Fs M).map Prod.fst =
      (Fs.filter (fun F => decide (F.type ≠ remapFunctionType H F.type))).map (fun F => F.id)
  | [], _ => rfl
  | F :: Fs, M => by
    simp only [worklistOf]
    by_cases hF : F.type ≠ remapFunctionType H F.type
    · simp [hF, worklistOf_fst H Fs]
    · simp [hF, worklistOf_fst H Fs]

theorem worklistOf_snd (H : Host) : ∀ (Fs : List Function) (M : Module),
    (worklistOf H Fs M).map Prod.snd = (clonesOf H Fs M).map (fun N => N.id)
  | [], _ => rfl
  | F :: Fs, M => by
    simp only [worklistOf, clonesOf]
    by_cases hF : F.type ≠ remapFunctionType H F.type
    · simp [hF, worklistOf_snd H Fs, newFunction_id]
    · simp [hF, worklistOf_snd H Fs]

theorem clonesOf_fresh (H : Host) : ∀ (Fs : List Function) (M : Module),
    ∀ N ∈ clonesOf H Fs M, M.freshId ≤ N.id
  | [], _, N, hN => by simp [clonesOf] at hN
  | F :: Fs, M, N, hN => by
    simp only [clonesOf] at hN
    by_cases hF : F.type ≠ remapFunctionType H F.type
    · simp only [hF, ne_eq, not_false_eq_true, if_true, List.mem_cons] at hN
      rcases hN with rfl | hN
      · exact le_of_eq (newFunction_id H M F).symm
      · exact le_trans (M.freshId_le_append _) (clonesOf_fresh H Fs _ N hN)
    · simp only [hF, if_false] at hN
      exact clonesOf_fresh H Fs M N hN

theorem clonesOf_fixed (H : Host) : ∀ (Fs : List Function) (M : Module),
    ∀ N ∈ clonesOf H Fs M, remapFunctionType H N.type = N.type
  | [], _, N, hN => by simp [clonesOf] at hN
  | F :: Fs, M, N, hN => by
    simp only [clonesOf] at hN
    by_cases hF : F.type ≠ remapFunctionType H F.type
    · simp only [hF, ne_eq, not_false_eq_true, if_true, List.mem_cons] at hN
      rcases hN with rfl | hN
      · exact newFunction_fixed H M F
      · exact clonesOf_fixed H Fs _ N hN
    · simp only [hF, if_false] at hN
      exact clonesOf_fixed H Fs M N hN

/-- A function of the visited list whose type changes has an entry in the worklist
and its clone, built in some module state that extends the starting one, among the
clones. -/
theorem clonesOf_of_changed (H : Host) : ∀ (Fs : List Function) (M : Module) (F : Function),
    F ∈ Fs → F.type ≠ remapFunctionType H F.type →
    ∃ M2 : Module, (F.id, M2.freshId) ∈ worklistOf H Fs M ∧
      newFunction H M2 F ∈ clonesOf H Fs M ∧ M.freshId ≤ M2.freshId
  | [], _, _, hF, _ => by simp at hF
  | F0 :: Fs, M, F, hF, hch => by
    simp only [List.mem_cons] at hF
    simp only [worklistOf, clonesOf]
    by_cases hF0 : F0.type ≠ remapFunctionType H F0.type
    · simp only [hF0, ne_eq, not_false_eq_true, if_true, List.mem_cons]
      rcases hF with rfl | hF
      · exact ⟨M, Or.inl rfl, Or.inl rfl, le_refl _⟩
      · obtain ⟨M2, h1, h2, h3⟩ := clonesOf_of_changed H Fs _ F hF hch
        exact ⟨M2, Or.inr h1, Or.inr h2, le_trans (M.freshId_le_append _) h3⟩
    · simp only [hF0, if_false]
      rcases hF with rfl | hF
      · exact absurd hch hF0
      · exact clonesOf_of_changed H Fs M F hF hch

/-! ## Lemmas on the second loop -/

theorem updateFunction_map_unnamed (M : Module) (F : Nat) (f : Function → Function)
    (hf : ∀ G, (f G).unnamed = G.unnamed) :
    (M.updateFunction F f).functions.map Function.unnamed = M.functions.map Function.unnamed := by
  simp only [Module.updateFunction, List.map_map]
  apply List.map_congr_left
  intro G _
  simp only [Function.comp_apply]
  split
  · exact hf G
  · rfl

theorem setName_map_unnamed (H : Host) (M : Module) (F : Nat) (N : String) :
    (M.setName H F N).functions.map Function.unnamed = M.functions.map Function.unnamed := by
  unfold Module.setName
  apply updateFunction_map_unnamed
  intro G
  split <;> rfl

theorem commitReplacement_map_unnamed (H : Host) (M : Module) (p : Nat × Nat) :
    (commitReplacement H M p).functions.map Function.unnamed =
      ((M.functions.map Function.unnamed).filter (fun G => G.id != p.1)).map
        (Function.replaceUses p.1 p.2) := by
  simp only [commitReplacement, Module.eraseFromParent, Module.replaceAllUsesWith]
  rw [← setName_map_unnamed H M p.1 "", ← setName_map_unnamed H (M.setName H p.1 "") p.2 _]
  generalize ((M.setName H p.1 "").setName H p.2 (M.getName p.1)).functions = L
  induction L with
  | nil => rfl
  | cons G L ih =>
    simp only [List.map_cons, List.filter_cons]
    have h1 : (Function.replaceUses p.1 p.2 G).id = G.id := rfl
    have h2 : G.unnamed.id = G.id := rfl
    rw [h1, h2]
    split
    · simp only [List.map_cons, ih]
      rfl
    · exact ih

theorem redirect_nil (V : Value) : redirect [] V = V := rfl

theorem redirect_cons (p : Nat × Nat) (R : Replacements) (V : Value) :
    redirect (p :: R) V = redirect R (V.replaceUse p.1 p.2) := rfl

theorem redirected_nil (G : Function) : G.redirected [] = G := by
  cases G with
  | mk _ _ _ _ _ body =>
    simp only [Function.redirected, Function.mk.injEq, true_and]
    conv_rhs => rw [← List.map_id body]
    apply List.map_congr_left
    intro I _
    cases I with
    | mk _ _ ops =>
      simp only [id, Instruction.mk.injEq, true_and]
      conv_rhs => rw [← List.map_id ops]
      apply List.map_congr_left
      intro V _
      rfl

theorem redirected_cons (p : Nat × Nat) (R : Replacements) (G : Function) :
    G.redirected (p :: R) = (G.replaceUses p.1 p.2).redirected R := by
  simp [Function.redirected, Function.replaceUses, replaceUsesInBody, redirect_cons]

theorem redirected_id (R : Replacements) (G : Function) : (G.redirected R).id = G.id := rfl

theorem commit_nil (H : Host) (M : Module) : commit H M [] = M := rfl

theorem commit_cons (H : Host) (M : Module) (p : Nat × Nat) (R : Replacements) :
    commit H M (p :: R) = commit H (commitReplacement H M p) R := rfl

/-- The functions left by the second loop, names apart: those whose identity is
not the first component of a worklist entry, in their order, with every operand
redirected along the worklist. -/
theorem commit_map_unnamed (H : Host) : ∀ (R : Replacements) (M : Module),
    (commit H M R).functions.map Function.unnamed =
      ((M.functions.map Function.unnamed).filter
        (fun G => decide (G.id ∉ R.map Prod.fst))).map (Function.redirected R)
  | [], M => by
    simp only [commit_nil, List.map_nil, List.not_mem_nil, not_false_eq_true, decide_True,
      List.filter_true]
    conv_lhs => rw [← List.map_id (M.functions.map Function.unnamed)]
    apply List.map_congr_left
    intro G _
    exact (redirected_nil G).symm
  | p :: R, M => by
    rw [commit_cons, commit_map_unnamed H R, commitReplacement_map_unnamed]
    generalize M.functions.map Function.unnamed = L
    induction L with
    | nil => rfl
    | cons G L ih =>
      simp only [List.filter_cons, List.map_cons, List.mem_cons, not_or]
      by_cases h1 : G.id = p.1
      · simp only [h1, bne_self_eq_false, Bool.false_eq_true, if_false, true_and,
          not_true_eq_false, false_and, decide_False]
        simpa [List.mem_cons, not_or] using ih
      · have h1b : (G.id != p.1) = true := by simpa using h1
        simp only [h1b, if_true, List.map_cons, List.filter_cons]
        have h2 : (Function.replaceUses p.1 p.2 G).id = G.id := rfl
        rw [h2]
        by_cases h3 : G.id ∈ R.map Prod.fst
        · simp only [h3, not_true_eq_false, decide_False, Bool.false_eq_true, if_false,
            and_false]
          simpa [List.mem_cons, not_or] using ih
        · simp only [h3, not_false_eq_true, decide_True, if_true, h1, and_self, List.map_cons,
            redirected_cons]
          congr 1
          simpa [List.mem_cons, not_or] using ih

theorem mem_commit_id (H : Host) (R : Replacements) (M : Module) :
    ∀ G ∈ (commit H M R).functions, G.id ∉ R.map Prod.fst := by
  intro G hG
  have h : G.unnamed ∈ (commit H M R).functions.map Function.unnamed :=
    List.mem_map_of_mem _ hG
  rw [commit_map_unnamed] at h
  obtain ⟨G1, hG1, h3⟩ := List.mem_map.1 h
  have h2 : G1.id ∉ R.map Prod.fst := of_decide_eq_true (List.mem_filter.1 hG1).2
  have h4 : (Function.redirected R G1).id = G.unnamed.id := congrArg Function.id h3
  have h5 : G1.id = G.id := h4
  rw [← h5]
  exact h2

theorem mem_commit_of_mem (H : Host) (R : Replacements) (M : Module) (N : Function)
    (hN : N ∈ M.functions) (hid : N.id ∉ R.map Prod.fst) :
    ∃ N2 ∈ (commit H M R).functions, N2.unnamed = (N.redirected R).unnamed := by
  have h : (N.unnamed).redirected R ∈ (commit H M R).functions.map Function.unnamed := by
    rw [commit_map_unnamed]
    apply List.mem_map_of_mem
    exact List.mem_filter.2 ⟨List.mem_map_of_mem _ hN, decide_eq_true hid⟩
  obtain ⟨N2, hN2, h2⟩ := List.mem_map.1 h
  exact ⟨N2, hN2, h2⟩

theorem redirect_ne_of_ne (F : Nat) : ∀ (R : Replacements) (V : Value),
    (∀ q ∈ R, q.2 ≠ F) → V ≠ .function F → redirect R V ≠ .function F
  | [], _, _, hV => hV
  | q :: R, V, hR, hV => by
    rw [redirect_cons]
    apply redirect_ne_of_ne F R _ (fun r hr => hR r (by simp [hr]))
    cases V with
    | function G =>
      simp only [Value.replaceUse]
      split
      · intro h
        injection h with h
        exact hR q (by simp) h
      · exact hV
    | argument _ _ => simp [Value.replaceUse]
    | instruction _ _ => simp [Value.replaceUse]
    | constant _ _ => simp [Value.replaceUse]

theorem redirect_ne_fst : ∀ (R : Replacements) (V : Value) (p : Nat × Nat), p ∈ R →
    (∀ q ∈ R, q.2 ≠ p.1) → redirect R V ≠ .function p.1
  | [], _, _, hp, _ => by simp at hp
  | q :: R, V, p, hp, hR => by
    rw [redirect_cons]
    simp only [List.mem_cons] at hp
    rcases hp with rfl | hp
    · apply redirect_ne_of_ne p.1 R _ (fun r hr => hR r (by simp [hr]))
      cases V with
      | function G =>
        simp only [Value.replaceUse]
        split
        · intro h
          injection h with h
          exact hR p (by simp) h
        · rename_i hG
          intro h
          injection h with h
          exact hG h
      | argument _ _ => simp [Value.replaceUse]
      | instruction _ _ => simp [Value.replaceUse]
      | constant _ _ => simp [Value.replaceUse]
    · exact redirect_ne_fst R _ p hp (fun r hr => hR r (by simp [hr]))

theorem redirect_of_not_fst : ∀ (R : Replacements) (V : Value),
    (∀ p ∈ R, V ≠ .function p.1) → redirect R V = V
  | [], _, _ => rfl
  | q :: R, V, hV => by
    rw [redirect_cons]
    have h1 : V.replaceUse q.1 q.2 = V := by
      cases V with
      | function G =>
        simp only [Value.replaceUse]
        split
        · rename_i hG
          exact absurd (by rw [hG]) (hV q (by simp))
        · rfl
      | argument _ _ => rfl
      | instruction _ _ => rfl
      | constant _ _ => rfl
    rw [h1]
    exact redirect_of_not_fst R V (fun p hp => hV p (by simp [hp]))

theorem redirect_fst : ∀ (R : Replacements) (p : Nat × Nat), p ∈ R →
    (R.map Prod.fst).Nodup → (∀ q ∈ R, ∀ r ∈ R, q.2 ≠ r.1) →
    redirect R (.function p.1) = .function p.2
  | [], _, hp, _, _ => by simp at hp
  | q :: R, p, hp, hnd, hR => by
    rw [redirect_cons]
    simp only [List.map_cons, List.nodup_cons] at hnd
    simp only [List.mem_cons] at hp
    rcases hp with rfl | hp
    · simp only [Value.replaceUse, if_true]
      apply redirect_of_not_fst
      intro r hr h
      injection h with h
      exact hR p (by simp) r (by simp [hr]) h
    · have hne : p.1 ≠ q.1 := by
        intro h
        exact hnd.1 (h ▸ List.mem_map_of_mem Prod.fst hp)
      simp only [Value.replaceUse, hne, if_false]
      exact redirect_fst R p hp hnd.2
        (fun a ha b hb => hR a (by simp [ha]) b (by simp [hb]))

theorem hasUseOf_eq_false_iff (M : Module) (F : Nat) :
    M.hasUseOf F = false ↔ ∀ G ∈ M.functions, ∀ I ∈ G.body, ∀ V ∈ I.operands, V ≠ .function F := by
  unfold Module.hasUseOf
  rw [List.any_eq_false]
  constructor
  · intro h G hG I hI V hV hVF
    apply h G hG
    rw [List.any_eq_true]
    refine ⟨I, hI, ?_⟩
    rw [List.contains_iff_exists_mem_beq]
    exact ⟨V, hV, by simp [hVF]⟩
  · intro h G hG hany
    rw [List.any_eq_true] at hany
    obtain ⟨I, hI, hc⟩ := hany
    rw [List.contains_iff_exists_mem_beq] at hc
    obtain ⟨V, hV, hVF⟩ := hc
    exact h G hG I hI V hV (by simpa using (beq_iff_eq.1 hVF).symm)

theorem commit_hasUseOf (H : Host) (R : Replacements) (M : Module)
    (hR : ∀ q ∈ R, ∀ r ∈ R, q.2 ≠ r.1) :
    ∀ p ∈ R, (commit H M R).hasUseOf p.1 = false := by
  intro p hp
  rw [hasUseOf_eq_false_iff]
  intro G hG I hI V hV
  have h : G.unnamed ∈ (commit H M R).functions.map Function.unnamed :=
    List.mem_map_of_mem _ hG
  rw [commit_map_unnamed] at h
  obtain ⟨G1, _, h3⟩ := List.mem_map.1 h
  have hb0 : (Function.redirected R G1).body = G.unnamed.body := congrArg Function.body h3
  have hb : G.body = (G1.redirected R).body := hb0.symm
  rw [hb] at hI
  simp only [Function.redirected, List.mem_map] at hI
  obtain ⟨I0, _, rfl⟩ := hI
  simp only [List.mem_map] at hV
  obtain ⟨V0, _, rfl⟩ := hV
  exact redirect_ne_fst R V0 p hp (fun q hq => hR q hq p hp)

/-! ## Lemmas on the whole pass -/

theorem worklistOf_fst_lt (H : Host) (M : Module) :
    ∀ p ∈ worklistOf H M.functions M, p.1 < M.freshId := by
  intro p hp
  have h : p.1 ∈ (worklistOf H M.functions M).map Prod.fst := List.mem_map_of_mem _ hp
  rw [worklistOf_fst] at h
  obtain ⟨F, hF, hid⟩ := List.mem_map.1 h
  rw [← hid]
  exact M.lt_freshId F (List.mem_filter.1 hF).1

theorem worklistOf_snd_ge (H : Host) (M : Module) :
    ∀ p ∈ worklistOf H M.functions M, M.freshId ≤ p.2 := by
  intro p hp
  have h : p.2 ∈ (worklistOf H M.functions M).map Prod.snd := List.mem_map_of_mem _ hp
  rw [worklistOf_snd] at h
  obtain ⟨N, hN, hid⟩ := List.mem_map.1 h
  rw [← hid]
  exact clonesOf_fresh H M.functions M N hN

theorem worklistOf_separated (H : Host) (M : Module) :
    ∀ q ∈ worklistOf H M.functions M, ∀ r ∈ worklistOf H M.functions M, q.2 ≠ r.1 := by
  intro q hq r hr h
  have h1 := worklistOf_snd_ge H M q hq
  have h2 := worklistOf_fst_lt H M r hr
  omega

theorem worklistOf_fst_nodup (H : Host) (M : Module)
    (hM : (M.functions.map (fun G => G.id)).Nodup) :
    ((worklistOf H M.functions M).map Prod.fst).Nodup := by
  rw [worklistOf_fst]
  exact hM.sublist ((List.filter_sublist _).map _)

theorem worklistOf_eq_nil_iff (H : Host) (M : Module) :
    worklistOf H M.functions M = [] ↔ ∀ F ∈ M.functions, remapFunctionType H F.type = F.type := by
  have h := worklistOf_fst H M.functions M
  constructor
  · intro h0 F hF
    rw [h0] at h
    simp only [List.map_nil] at h
    have h1 := List.map_eq_nil_iff.1 h.symm
    by_contra hne
    have hmem : F ∈ M.functions.filter
        (fun F => decide (F.type ≠ remapFunctionType H F.type)) :=
      List.mem_filter.2 ⟨hF, decide_eq_true (fun e => hne e.symm)⟩
    rw [h1] at hmem
    simp at hmem
  · intro hall
    have h1 : M.functions.filter (fun F => decide (F.type ≠ remapFunctionType H F.type)) = [] := by
      rw [List.filter_eq_nil_iff]
      intro F hF
      simp [hall F hF]
    rw [h1] at h
    exact List.map_eq_nil_iff.1 h

/-- With enough iterations allowed, the first loop ends with the clones appended
to the function list and the worklist built, and the pass returns the module
left by the second loop and whether the worklist has an entry. -/
theorem runOnModule_eq (H : Host) (M : Module) (fuel : Nat)
    (hfuel : 2 * M.functions.length + 1 ≤ fuel) :
    analyze H fuel M = some ({ functions := M.functions ++ clonesOf H M.functions M },
      worklistOf H M.functions M) ∧
    runOnModule H fuel M =
      some (commit H { functions := M.functions ++ clonesOf H M.functions M }
        (worklistOf H M.functions M), decide ((worklistOf H M.functions M).length > 0)) := by
  have h := analyze_eq_analyzeList H M fuel hfuel
  rw [analyzeList_eq] at h
  simp only [List.nil_append] at h
  refine ⟨h, ?_⟩
  simp only [runOnModule, h]

theorem analyze_of_all_fixed (H : Host) (M : Module) (fuel : Nat)
    (hM : ∀ F ∈ M.functions, remapFunctionType H F.type = F.type)
    (hfuel : M.functions.length + 1 ≤ fuel) : analyze H fuel M = some (M, []) := by
  have h := analyzeLoop_of_fixed H M.functions [] M [] fuel (by simp) hM hfuel
  simpa [analyze] using h

theorem remapFunctionType_ne_of_special (H : Host) (S : FunctionType) (E : IRType) (A : Nat)
    (hA : H.isSpecialAS A = true) (hG : A ≠ H.Generic)
    (hsig : S.returnType = .pointer E A ∨ .pointer E A ∈ S.params) :
    S ≠ remapFunctionType H S := by
  intro h
  rw [remapFunctionType_eq] at h
  have hp : remapType H (.pointer E A) ≠ .pointer E A := by
    rw [remapType_pointer]
    simp only [hA, if_true, ne_eq, IRType.pointer.injEq, not_and]
    intro _ h2
    exact hG h2.symm
  rcases hsig with hr | hp2
  · have h1 := congrArg FunctionType.returnType h
    simp only at h1
    rw [hr] at h1
    exact hp h1.symm
  · have h1 := congrArg FunctionType.params h
    simp only at h1
    have h2 : List.map (remapType H) S.params = List.map id S.params := by
      rw [List.map_id]
      exact h1.symm
    exact hp (List.map_inj_left.1 h2 _ hp2)

/-! ## Lemmas on the shape of remapped types -/

theorem forall₂_self_or {G : Nat} : ∀ l : List Nat, List.Forall₂ (fun b a => b = a ∨ b = G) l l
  | [] => List.Forall₂.nil
  | _ :: l => List.Forall₂.cons (Or.inl rfl) (forall₂_self_or l)

theorem forall₂_append_or {G : Nat} {l1 l2 m1 m2 : List Nat}
    (h1 : List.Forall₂ (fun b a => b = a ∨ b = G) l1 m1)
    (h2 : List.Forall₂ (fun b a => b = a ∨ b = G) l2 m2) :
    List.Forall₂ (fun b a => b = a ∨ b = G) (l1 ++ l2) (m1 ++ m2) := by
  induction h1 with
  | nil => exact h2
  | cons h _ ih => exact List.Forall₂.cons h ih

theorem eraseAddressSpaces_remapType (H : Host) :
    ∀ T : IRType, (remapType H T).eraseAddressSpaces = T.eraseAddressSpaces
  | .pointer e a => by
    rw [remapType_pointer]
    split <;> simp [IRType.eraseAddressSpaces, eraseAddressSpaces_remapType H e]
  | .void => rfl
  | .integer _ => rfl
  | .floating _ => rfl
  | .function _ _ _ => rfl
  | .array _ _ => rfl
  | .vector _ _ => rfl
  | .struct _ _ => rfl
  | .named _ => rfl

theorem eraseAddressSpacesList_map_remapType (H : Host) :
    ∀ Ts : List IRType,
      IRType.eraseAddressSpacesList (Ts.map (remapType H)) = IRType.eraseAddressSpacesList Ts
  | [] => rfl
  | T :: Ts => by
    simp [IRType.eraseAddressSpacesList, eraseAddressSpaces_remapType H T,
      eraseAddressSpacesList_map_remapType H Ts]

theorem pointerDepth_remapType (H : Host) :
    ∀ T : IRType, (remapType H T).pointerDepth = T.pointerDepth
  | .pointer e a => by
    rw [remapType_pointer]
    split <;> simp [IRType.pointerDepth, pointerDepth_remapType H e]
  | .void => rfl
  | .integer _ => rfl
  | .floating _ => rfl
  | .function _ _ _ => rfl
  | .array _ _ => rfl
  | .vector _ _ => rfl
  | .struct _ _ => rfl
  | .named _ => rfl

theorem pointeeLeaf_remapType (H : Host) :
    ∀ T : IRType, (remapType H T).pointeeLeaf = T.pointeeLeaf
  | .pointer e a => by
    rw [remapType_pointer]
    split <;> simp [IRType.pointeeLeaf, pointeeLeaf_remapType H e]
  | .void => rfl
  | .integer _ => rfl
  | .floating _ => rfl
  | .function _ _ _ => rfl
  | .array _ _ => rfl
  | .vector _ _ => rfl
  | .struct _ _ => rfl
  | .named _ => rfl

theorem addressSpaces_remapType (H : Host) :
    ∀ T : IRType, List.Forall₂ (fun b a => b = a ∨ b = H.Generic)
      (remapType H T).addressSpaces T.addressSpaces
  | .pointer e a => by
    rw [remapType_pointer]
    split
    · exact List.Forall₂.cons (Or.inr rfl) (addressSpaces_remapType H e)
    · exact List.Forall₂.cons (Or.inl rfl) (addressSpaces_remapType H e)
  | .void => forall₂_self_or _
  | .integer _ => forall₂_self_or _
  | .floating _ => forall₂_self_or _
  | .function _ _ _ => forall₂_self_or _
  | .array _ _ => forall₂_self_or _
  | .vector _ _ => forall₂_self_or _
  | .struct _ _ => forall₂_self_or _
  | .named _ => forall₂_self_or _

theorem addressSpacesList_map_remapType (H : Host) :
    ∀ Ts : List IRType, List.Forall₂ (fun b a => b = a ∨ b = H.Generic)
      (IRType.addressSpacesList (Ts.map (remapType H))) (IRType.addressSpacesList Ts)
  | [] => List.Forall₂.nil
  | T :: Ts => by
    simp only [List.map, IRType.addressSpacesList]
    exact forall₂_append_or (addressSpaces_remapType H T) (addressSpacesList_map_remapType H Ts)

/-! ## Lemmas on the module left by the pass -/

theorem commit_fixed (H : Host) (R : Replacements) (M : Module)
    (hM : ∀ G ∈ M.functions, G.id ∉ R.map Prod.fst → remapFunctionType H G.type = G.type) :
    ∀ G ∈ (commit H M R).functions, remapFunctionType H G.type = G.type := by
  intro G hG
  have h : G.unnamed ∈ (commit H M R).functions.map Function.unnamed :=
    List.mem_map_of_mem _ hG
  rw [commit_map_unnamed] at h
  obtain ⟨G1, hG1, h3⟩ := List.mem_map.1 h
  obtain ⟨hG1a, hG1b⟩ := List.mem_filter.1 hG1
  obtain ⟨G0, hG0, rfl⟩ := List.mem_map.1 hG1a
  have hty : (Function.redirected R G0.unnamed).type = G.unnamed.type :=
    congrArg Function.type h3
  have hty2 : G0.type = G.type := hty
  rw [← hty2]
  exact hM G0 hG0 (of_decide_eq_true hG1b)

theorem mem_worklistOf_fst_of_changed (H : Host) (M : Module) (F : Function)
    (hF : F ∈ M.functions) (hch : F.type ≠ remapFunctionType H F.type) :
    F.id ∈ (worklistOf H M.functions M).map Prod.fst := by
  rw [worklistOf_fst]
  exact List.mem_map_of_mem _ (List.mem_filter.2 ⟨hF, decide_eq_true hch⟩)

theorem after_phase1_fixed_or_listed (H : Host) (M : Module) :
    ∀ G ∈ M.functions ++ clonesOf H M.functions M,
      G.id ∉ (worklistOf H M.functions M).map Prod.fst →
      remapFunctionType H G.type = G.type := by
  intro G hG hid
  rcases List.mem_append.1 hG with hG | hG
  · by_contra hne
    exact hid (mem_worklistOf_fst_of_changed H M G hG (fun e => hne e.symm))
  · exact clonesOf_fixed H M.functions M G hG

theorem clonesOf_length (H : Host) : ∀ (Fs : List Function) (M : Module),
    (clonesOf H Fs M).length =
      (Fs.filter (fun F => decide (F.type ≠ remapFunctionType H F.type))).length
  | [], _ => rfl
  | F :: Fs, M => by
    simp only [clonesOf]
    by_cases hF : F.type ≠ remapFunctionType H F.type
    · simp [hF, clonesOf_length H Fs]
    · simp [hF, clonesOf_length H Fs]

theorem clonesOf_length_le (H : Host) (Fs : List Function) (M : Module) :
    (clonesOf H Fs M).length ≤ Fs.length := by
  rw [clonesOf_length]
  exact List.length_filter_le _ _

theorem commit_length_le (H : Host) (R : Replacements) (M : Module) :
    (commit H M R).functions.length ≤ M.functions.length := by
  have h := congrArg List.length (commit_map_unnamed H R M)
  simp only [List.length_map] at h
  rw [h]
  exact le_trans (List.length_filter_le _ _) (by simp)

theorem runOnModule_of_all_fixed (H : Host) (M : Module) (fuel : Nat)
    (hM : ∀ F ∈ M.functions, remapFunctionType H F.type = F.type)
    (hfuel : M.functions.length + 1 ≤ fuel) : runOnModule H fuel M = some (M, false) := by
  have h := analyze_of_all_fixed H M fuel hM hfuel
  simp [runOnModule, h, commit]

/-! ## Lemmas on the number of iterations of the first loop -/

theorem analyzeLoop_none_of_fixed (H : Host) : ∀ (cl pre : List Function) (M : Module)
    (R : Replacements) (fuel : Nat), M.functions = pre ++ cl →
    (∀ N ∈ cl, remapFunctionType H N.type = N.type) → fuel ≤ cl.length →
    analyzeLoop H fuel pre.length M R = none
  | _, _, _, _, 0, _, _, _ => rfl
  | [], _, _, _, fuel + 1, _, _, hfuel => by simp at hfuel
  | N :: cl, pre, M, R, fuel + 1, hM, hcl, hfuel => by
    have hget : M.functions[pre.length]? = some N := by
      rw [hM]
      exact getElem?_length_append_cons pre N cl
    simp only [analyzeLoop, hget]
    rw [analyzeFunction_of_fixed H M R N (hcl N (by simp))]
    have h := analyzeLoop_none_of_fixed H cl (pre ++ [N]) M R fuel (by simp [hM])
      (fun N2 hN2 => hcl N2 (by simp [hN2])) (by simp at hfuel ⊢; omega)
    simpa using h

theorem analyzeLoop_none (H : Host) : ∀ (todo pre cl : List Function) (M : Module)
    (R : Replacements) (fuel : Nat), M.functions = pre ++ todo ++ cl →
    (∀ N ∈ cl, remapFunctionType H N.type = N.type) →
    fuel ≤ todo.length +
      (todo.filter (fun F => decide (F.type ≠ remapFunctionType H F.type))).length + cl.length →
    analyzeLoop H fuel pre.length M R = none
  | _, _, _, _, _, 0, _, _, _ => rfl
  | [], pre, cl, M, R, fuel + 1, hM, hcl, hfuel =>
    analyzeLoop_none_of_fixed H cl pre M R (fuel + 1) (by simpa using hM) hcl
      (by simpa using hfuel)
  | F :: todo, pre, cl, M, R, fuel + 1, hM, hcl, hfuel => by
    have hget : M.functions[pre.length]? = some F := by
      rw [hM, List.append_assoc]
      exact getElem?_length_append_cons pre F (todo ++ cl)
    simp only [analyzeLoop, hget]
    by_cases hF : remapFunctionType H F.type = F.type
    · rw [analyzeFunction_of_fixed H M R F hF]
      have hF3 : ¬ (F.type ≠ remapFunctionType H F.type) := fun h => h hF.symm
      have h := analyzeLoop_none H todo (pre ++ [F]) cl M R fuel (by simp [hM]) hcl
        (by simp [List.filter_cons, hF3] at hfuel ⊢; omega)
      simpa using h
    · have hF2 : F.type ≠ remapFunctionType H F.type := fun h => hF h.symm
      rw [analyzeFunction_of_changed H M R F hF2]
      have h := analyzeLoop_none H todo (pre ++ [F]) (cl ++ [newFunction H M F])
        { functions := M.functions ++ [newFunction H M F] } (R ++ [(F.id, M.freshId)]) fuel
        (by simp [hM])
        (by
          intro N hN
          simp only [List.mem_append, List.mem_singleton] at hN
          rcases hN with hN | rfl
          · exact hcl N hN
          · exact newFunction_fixed H M F)
        (by simp [List.filter_cons, hF2] at hfuel ⊢; omega)
      simpa using h

theorem analyzeLoop_some_tight (H : Host) : ∀ (todo pre cl : List Function) (M : Module)
    (R : Replacements) (fuel : Nat), M.functions = pre ++ todo ++ cl →
    (∀ N ∈ cl, remapFunctionType H N.type = N.type) →
    todo.length +
      (todo.filter (fun F => decide (F.type ≠ remapFunctionType H F.type))).length + cl.length
      + 1 ≤ fuel →
    analyzeLoop H fuel pre.length M R = some (analyzeList H todo M R)
  | [], pre, cl, M, R, fuel, hM, hcl, hfuel => by
    simp only [analyzeList]
    exact analyzeLoop_of_fixed H cl pre M R fuel (by simpa using hM) hcl (by simpa using hfuel)
  | F :: todo, pre, cl, M, R, fuel, hM, hcl, hfuel => by
    obtain ⟨fuel, rfl⟩ : ∃ k, fuel = k + 1 := ⟨fuel - 1, by simp at hfuel; omega⟩
    have hget : M.functions[pre.length]? = some F := by
      rw [hM, List.append_assoc]
      exact getElem?_length_append_cons pre F (todo ++ cl)
    simp only [analyzeLoop, hget, analyzeList]
    by_cases hF : remapFunctionType H F.type = F.type
    · rw [analyzeFunction_of_fixed H M R F hF]
      have hF3 : ¬ (F.type ≠ remapFunctionType H F.type) := fun h => h hF.symm
      have h := analyzeLoop_some_tight H todo (pre ++ [F]) cl M R fuel (by simp [hM]) hcl
        (by simp [List.filter_cons, hF3] at hfuel ⊢; omega)
      simpa using h
    · have hF2 : F.type ≠ remapFunctionType H F.type := fun h => hF h.symm
      rw [analyzeFunction_of_changed H M R F hF2]
      have h := analyzeLoop_some_tight H todo (pre ++ [F]) (cl ++ [newFunction H M F])
        { functions := M.functions ++ [newFunction H M F] } (R ++ [(F.id, M.freshId)]) fuel
        (by simp [hM])
        (by
          intro N hN
          simp only [List.mem_append, List.mem_singleton] at hN
          rcases hN with hN | rfl
          · exact hcl N hN
          · exact newFunction_fixed H M F)
        (by simp [List.filter_cons, hF2] at hfuel ⊢; omega)
      simpa using h

/-- The first loop makes one iteration for each function present at the start
and one for each clone, and one more test of the iterator: it ends exactly when
that many iterations are allowed. -/
theorem analyze_iterations (H : Host) (M : Module) (fuel : Nat) :
    (M.functions.length +
      (M.functions.filter (fun F => decide (F.type ≠ remapFunctionType H F.type))).length
      + 1 ≤ fuel →
      analyze H fuel M = some ({ functions := M.functions ++ clonesOf H M.functions M },
        worklistOf H M.functions M)) ∧
    (fuel ≤ M.functions.length +
      (M.functions.filter (fun F => decide (F.type ≠ remapFunctionType H F.type))).length →
      analyze H fuel M = none) := by
  constructor
  · intro hfuel
    have h := analyzeLoop_some_tight H M.functions [] [] M [] fuel (by simp) (by simp)
      (by simpa using hfuel)
    rw [analyzeList_eq] at h
    simpa [analyze] using h
  · intro hfuel
    have h := analyzeLoop_none H M.functions [] [] M [] fuel (by simp) (by simp)
      (by simpa using hfuel)
    simpa [analyze] using h

/-! ## Lemmas on the function list left by the pass -/

theorem fixed_iff_not_listed (H : Host) (M : Module)
    (hM : (M.functions.map (fun G => G.id)).Nodup) :
    ∀ G ∈ M.functions, (G.id ∉ (worklistOf H M.functions M).map Prod.fst ↔
      remapFunctionType H G.type = G.type) := by
  intro G hG
  constructor
  · intro hid
    by_contra hne
    exact hid (mem_worklistOf_fst_of_changed H M G hG (fun e => hne e.symm))
  · intro hfix hmem
    rw [worklistOf_fst] at hmem
    obtain ⟨F, hF, hid⟩ := List.mem_map.1 hmem
    obtain ⟨hF1, hF2⟩ := List.mem_filter.1 hF
    have hFG : F = G := List.inj_on_of_nodup_map hM hF1 hG hid
    rw [hFG] at hF2
    exact of_decide_eq_true hF2 hfix.symm

theorem clone_not_listed (H : Host) (M : Module) :
    ∀ N ∈ clonesOf H M.functions M, N.id ∉ (worklistOf H M.functions M).map Prod.fst := by
  intro N hN hmem
  obtain ⟨r, hr, hrid⟩ := List.mem_map.1 hmem
  have h1 := worklistOf_fst_lt H M r hr
  have h2 := clonesOf_fresh H M.functions M N hN
  omega

theorem survivors_eq (H : Host) (M : Module) (hM : (M.functions.map (fun G => G.id)).Nodup) :
    (M.functions ++ clonesOf H M.functions M).filter
        (fun G => decide (G.id ∉ (worklistOf H M.functions M).map Prod.fst)) =
      M.functions.filter (fun F => decide (remapFunctionType H F.type = F.type)) ++
        clonesOf H M.functions M := by
  rw [List.filter_append]
  congr 1
  · apply List.filter_congr
    intro G hG
    exact decide_eq_decide.2 (fixed_iff_not_listed H M hM G hG)
  · rw [List.filter_eq_self]
    intro N hN
    exact decide_eq_true (clone_not_listed H M N hN)

/-- With distinct identities, the functions left by the pass, names apart: the
functions of the module whose type is a fixed point, then the clones, every
operand redirected along the worklist. -/
theorem commit_after_phase1 (H : Host) (M : Module)
    (hM : (M.functions.map (fun G => G.id)).Nodup) :
    (commit H { functions := M.functions ++ clonesOf H M.functions M }
        (worklistOf H M.functions M)).functions.map Function.unnamed =
      ((M.functions.filter (fun F => decide (remapFunctionType H F.type = F.type)) ++
        clonesOf H M.functions M).map Function.unnamed).map
          (Function.redirected (worklistOf H M.functions M)) := by
  rw [commit_map_unnamed, List.filter_map]
  have h : ((fun G : Function => decide (G.id ∉ (worklistOf H M.functions M).map Prod.fst)) ∘
      Function.unnamed) =
      (fun G : Function => decide (G.id ∉ (worklistOf H M.functions M).map Prod.fst)) := rfl
  rw [h, survivors_eq H M hM]

theorem length_filter_fixed_add (H : Host) (Fs : List Function) :
    (Fs.filter (fun F => decide (remapFunctionType H F.type = F.type))).length +
      (Fs.filter (fun F => decide (F.type ≠ remapFunctionType H F.type))).length = Fs.length := by
  induction Fs with
  | nil => rfl
  | cons F Fs ih =>
    by_cases hF : remapFunctionType H F.type = F.type
    · have hF3 : ¬ (F.type ≠ remapFunctionType H F.type) := fun h => h hF.symm
      simp only [List.filter_cons]
      rw [if_pos (decide_eq_true hF), if_neg (by rw [decide_eq_true_eq]; exact hF3)]
      simp only [List.length_cons]
      omega
    · have hF2 : F.type ≠ remapFunctionType H F.type := fun h => hF h.symm
      simp only [List.filter_cons]
      rw [if_neg (by rw [decide_eq_true_eq]; exact hF), if_pos (decide_eq_true hF2)]
      simp only [List.length_cons]
      omega

theorem commit_after_phase1_length (H : Host) (M : Module)
    (hM : (M.functions.map (fun G => G.id)).Nodup) :
    (commit H { functions := M.functions ++ clonesOf H M.functions M }
        (worklistOf H M.functions M)).functions.length = M.functions.length := by
  have h := congrArg List.length (commit_after_phase1 H M hM)
  simp only [List.length_map, List.length_append, clonesOf_length] at h
  rw [h]
  exact length_filter_fixed_add H M.functions

theorem clonesOf_forall₂ (H : Host) : ∀ (Fs : List Function) (M : Module),
    List.Forall₂ (fun F N => ∃ Mx : Module, N = newFunction H Mx F ∧ M.freshId ≤ Mx.freshId)
      (Fs.filter (fun F => decide (F.type ≠ remapFunctionType H F.type))) (clonesOf H Fs M)
  | [], _ => List.Forall₂.nil
  | F :: Fs, M => by
    simp only [clonesOf]
    by_cases hF : F.type ≠ remapFunctionType H F.type
    · simp only [List.filter_cons, hF, ne_eq, not_false_eq_true, decide_True, if_true]
      refine List.Forall₂.cons ⟨M, rfl, le_refl _⟩ ?_
      refine List.Forall₂.imp ?_ (clonesOf_forall₂ H Fs _)
      intro F2 N2 ⟨Mx, h1, h2⟩
      exact ⟨Mx, h1, le_trans (M.freshId_le_append _) h2⟩
    · simp only [List.filter_cons, hF, decide_False, Bool.false_eq_true, if_false]
      exact clonesOf_forall₂ H Fs M

theorem worklistOf_eq_zip (H : Host) (M : Module) :
    worklistOf H M.functions M =
      List.zip ((M.functions.filter
        (fun F => decide (F.type ≠ remapFunctionType H F.type))).map (fun F => F.id))
        ((clonesOf H M.functions M).map (fun N => N.id)) :=
  List.zip_of_prod (worklistOf_fst H M.functions M) (worklistOf_snd H M.functions M)

/-! ## Lemmas on the functions the second loop does not name -/

theorem mem_updateFunction_of_ne (M : Module) (F : Nat) (f : Function → Function)
    (G : Function) (hG : G ∈ M.functions) (hne : G.id ≠ F) :
    G ∈ (M.updateFunction F f).functions := by
  unfold Module.updateFunction
  simp only [List.mem_map]
  exact ⟨G, hG, by simp [hne]⟩

theorem mem_setName_of_ne (H : Host) (M : Module) (F : Nat) (N : String)
    (G : Function) (hG : G ∈ M.functions) (hne : G.id ≠ F) :
    G ∈ (M.setName H F N).functions :=
  mem_updateFunction_of_ne M F _ G hG hne

theorem mem_commitReplacement_of_ne (H : Host) (M : Module) (p : Nat × Nat) (G : Function)
    (hG : G ∈ M.functions) (h1 : G.id ≠ p.1) (h2 : G.id ≠ p.2) :
    G.replaceUses p.1 p.2 ∈ (commitReplacement H M p).functions := by
  simp only [commitReplacement, Module.eraseFromParent, Module.replaceAllUsesWith]
  apply List.mem_filter.2
  constructor
  · apply List.mem_map_of_mem
    exact mem_setName_of_ne H _ p.2 _ G (mem_setName_of_ne H M p.1 "" G hG h1) h2
  · have h : (Function.replaceUses p.1 p.2 G).id = G.id := rfl
    rw [h]
    simpa using h1

/-- A function whose identity is in no worklist entry goes through the second
loop with nothing changed but its operands, redirected along the worklist. -/
theorem mem_commit_redirected (H : Host) : ∀ (R : Replacements) (M : Module) (G : Function),
    G ∈ M.functions → G.id ∉ R.map Prod.fst → G.id ∉ R.map Prod.snd →
    G.redirected R ∈ (commit H M R).functions
  | [], M, G, hG, _, _ => by
    rw [redirected_nil, commit_nil]
    exact hG
  | p :: R, M, G, hG, h1, h2 => by
    simp only [List.map_cons, List.mem_cons, not_or] at h1 h2
    rw [redirected_cons, commit_cons]
    exact mem_commit_redirected H R _ _ (mem_commitReplacement_of_ne H M p G hG h1.1 h2.1)
      h1.2 h2.2

theorem redirected_eq_self (R : Replacements) (G : Function)
    (h : ∀ I ∈ G.body, ∀ V ∈ I.operands, ∀ p ∈ R, V ≠ .function p.1) :
    G.redirected R = G := by
  cases G with
  | mk _ _ _ _ _ body =>
    simp only [Function.redirected, Function.mk.injEq, true_and]
    conv_rhs => rw [← List.map_id body]
    apply List.map_congr_left
    intro I hI
    cases I with
    | mk _ _ ops =>
      simp only [id, Instruction.mk.injEq, true_and]
      conv_rhs => rw [← List.map_id ops]
      apply List.map_congr_left
      intro V hV
      exact redirect_of_not_fst R V (h _ hI V hV)

theorem original_not_snd (H : Host) (M : Module) (G : Function) (hG : G ∈ M.functions) :
    G.id ∉ (worklistOf H M.functions M).map Prod.snd := by
  intro hmem
  obtain ⟨r, hr, hrid⟩ := List.mem_map.1 hmem
  have h1 := worklistOf_snd_ge H M r hr
  have h2 := M.lt_freshId G hG
  omega

theorem usersOf_append (Fs Ns : List Function) (F : Nat) :
    (Module.mk (Fs ++ Ns)).usersOf F = (Module.mk Fs).usersOf F ++ (Module.mk Ns).usersOf F := by
  simp [Module.usersOf]

/-! ## Lemmas on names -/

theorem length_le_foldr_max_length (taken : List String) :
    ∀ N ∈ taken, N.length ≤ (taken.map String.length).foldr max 0 := by
  intro N hN
  exact le_foldr_max _ N.length (List.mem_map_of_mem _ hN)

theorem scenarioHost_fresh : scenarioHost.Fresh := by
  intro taken N hmem
  have h := length_le_foldr_max_length taken _ hmem
  simp only [scenarioHost, scenarioUniqueName, String.length_append, String.length_mk,
    List.length_replicate] at h
  have h1 : ".".length = 1 := by decide
  omega

theorem namesDistinct_cons (a : String) (l : List String) :
    namesDistinct (a :: l) ↔ (a = "" ∨ a ∉ l) ∧ namesDistinct l := by
  unfold namesDistinct
  by_cases ha : a = ""
  · simp [List.filter_cons, ha]
  · simp [List.filter_cons, ha, List.mem_filter]

theorem namesDistinct_map_ne {α : Type} (f : α → String) :
    ∀ (l : List α), namesDistinct (l.map f) → ∀ x ∈ l, ∀ y ∈ l, x ≠ y →
      f x = "" ∨ f x ≠ f y
  | [], _, x, hx, _, _, _ => by simp at hx
  | a :: l, h, x, hx, y, hy, hxy => by
    rw [List.map_cons, namesDistinct_cons] at h
    simp only [List.mem_cons] at hx hy
    rcases hx with rfl | hx
    · rcases hy with rfl | hy
      · exact absurd rfl hxy
      · rcases h.1 with h0 | h0
        · exact Or.inl h0
        · exact Or.inr (fun e => h0 (e ▸ List.mem_map_of_mem f hy))
    · rcases hy with rfl | hy
      · rcases h.1 with h0 | h0
        · by_cases e : f x = f y
          · exact Or.inl (e.trans h0)
          · exact Or.inr e
        · exact Or.inr (fun e => h0 (e ▸ List.mem_map_of_mem f hx))
      · exact namesDistinct_map_ne f l h.2 x hx y hy hxy

theorem createValueName_of_free (H : Host) (taken : List String) (N : String)
    (h : N = "" ∨ N ∉ taken) : createValueName H taken N = N := by
  unfold createValueName
  by_cases hN : N = ""
  · simp [hN]
  · rcases h with h | h
    · exact absurd h hN
    · simp [hN, h]

theorem createValueName_fresh (H : Host) (hH : H.Fresh) (taken : List String) (N : String)
    (h : N ∈ taken) : createValueName H taken N = "" ∨ createValueName H taken N ∉ taken := by
  unfold createValueName
  by_cases hN : N = ""
  · simp [hN]
  · simp only [hN, if_false, h, if_true]
    exact Or.inr (hH taken N)

theorem getName_eq (M : Module) (F : Nat) :
    M.getName F = ((M.functions.find? (fun G => G.id == F)).map (fun G => G.name)).getD "" := by
  unfold Module.getName
  cases M.functions.find? (fun G => G.id == F) <;> rfl

theorem getName_of_mem (M : Module) (hM : (M.functions.map (fun G => G.id)).Nodup)
    (F : Function) (hF : F ∈ M.functions) : M.getName F.id = F.name := by
  unfold Module.getName
  cases hfind : M.functions.find? (fun G => G.id == F.id) with
  | none =>
    rw [List.find?_eq_none] at hfind
    exact absurd (by simp) (hfind F hF)
  | some G =>
    have h1 : G ∈ M.functions := List.mem_of_find?_eq_some hfind
    have h2 := List.find?_some hfind
    have h3 : G = F := List.inj_on_of_nodup_map hM h1 hF (by simpa using h2)
    rw [h3]

theorem getName_mem_or_empty (M : Module) (F : Nat) :
    M.getName F = "" ∨ ∃ G ∈ M.functions, G.id = F ∧ G.name = M.getName F := by
  unfold Module.getName
  cases hfind : M.functions.find? (fun G => G.id == F) with
  | none => exact Or.inl rfl
  | some G =>
    have h1 : G ∈ M.functions := List.mem_of_find?_eq_some hfind
    have h2 := List.find?_some hfind
    exact Or.inr ⟨G, h1, by simpa using h2, rfl⟩

/-! ## Lemmas on the names after one commit step -/

theorem setName_empty_functions (H : Host) (M : Module) (F : Nat) :
    (M.setName H F "").functions =
      M.functions.map (fun G => if G.id = F then { G with name := "" } else G) := by
  simp only [Module.setName, Module.updateFunction]
  apply List.map_congr_left
  intro G _
  by_cases hid : G.id = F
  · simp only [hid, if_true]
    by_cases hn : G.name = ""
    · rw [if_pos hn]
      cases G
      simp_all
    · rw [if_neg hn]
      simp [createValueName]
  · simp only [hid, if_false]

theorem commitReplacement_functions (H : Host) (M : Module) (p : Nat × Nat) :
    (commitReplacement H M p).functions =
      (M.functions.filter (fun G => G.id != p.1)).map (fun G =>
        Function.replaceUses p.1 p.2 { G with name := committedName H M p G }) := by
  simp only [commitReplacement, Module.eraseFromParent, Module.replaceAllUsesWith,
    committedName]
  have h2 : ((M.setName H p.1 "").setName H p.2 (M.getName p.1)).functions =
      (M.setName H p.1 "").functions.map (fun G =>
        if G.id = p.2 then
          (if G.name = M.getName p.1 then G
           else { G with name := createValueName H (takenAtCommit H M p) (M.getName p.1) })
        else G) := rfl
  rw [h2]
  generalize M.getName p.1 = n
  generalize takenAtCommit H M p = taken
  rw [setName_empty_functions]
  induction M.functions with
  | nil => rfl
  | cons G L ih =>
    simp only [List.map_cons, List.filter_cons]
    by_cases h1 : G.id = p.1
    · have e0 : (if G.id = p.1 then { G with name := "" } else G) = { G with name := "" } :=
        if_pos h1
      rw [e0]
      have e1 : (Function.replaceUses p.1 p.2
          (if ({ G with name := "" } : Function).id = p.2 then
            if ({ G with name := "" } : Function).name = n then ({ G with name := "" } : Function)
            else { ({ G with name := "" } : Function) with name := createValueName H taken n }
          else ({ G with name := "" } : Function))).id = p.1 := by
        split
        · split <;> exact h1
        · exact h1
      rw [e1]
      simp only [h1, bne_self_eq_false, Bool.false_eq_true, if_false]
      simpa [h1] using ih
    · have e0 : (if G.id = p.1 then { G with name := "" } else G) = G := if_neg h1
      rw [e0]
      have e1 : (Function.replaceUses p.1 p.2
          (if G.id = p.2 then
            if G.name = n then G else { G with name := createValueName H taken n }
          else G)).id = G.id := by
        split
        · split <;> rfl
        · rfl
      rw [e1]
      have h1b : (G.id != p.1) = true := by simpa using h1
      simp only [h1b, if_true, List.map_cons]
      congr 1
      · congr 1
        by_cases h3 : G.id = p.2
        · simp only [h3, if_true]
          by_cases h4 : G.name = n
          · simp only [h4, if_true]
            cases G
            simp_all
          · simp only [h4, if_false]
        · simp only [h3, if_false]


theorem committedName_of_ne (H : Host) (M : Module) (p : Nat × Nat) (G : Function)
    (hG : G.id ≠ p.2) : committedName H M p G = G.name := by
  simp [committedName, hG]

theorem committedName_clone (H : Host) (M : Module) (p : Nat × Nat) (G : Function)
    (hG : G.id = p.2)
    (hfree : M.getName p.1 = "" ∨
      ∀ G0 ∈ M.functions, G0.id ≠ p.1 → G0.id ≠ p.2 → G0.name ≠ M.getName p.1) :
    committedName H M p G = M.getName p.1 := by
  simp only [committedName, hG, if_true]
  by_cases hn : G.name = M.getName p.1
  · simp [hn]
  · rw [if_neg hn]
    apply createValueName_of_free
    by_cases h0 : M.getName p.1 = ""
    · exact Or.inl h0
    · right
      intro hmem
      simp only [takenAtCommit, setName_empty_functions, List.mem_map, List.mem_filter] at hmem
      obtain ⟨G1, ⟨⟨G0, hG0, hG1⟩, hid⟩, hname⟩ := hmem
      by_cases h1 : G0.id = p.1
      · rw [if_pos h1] at hG1
        rw [← hG1] at hname
        exact h0 hname.symm
      · rw [if_neg h1] at hG1
        rw [← hG1] at hname hid
        rcases hfree with hfree | hfree
        · exact h0 hfree
        · exact hfree G0 hG0 h1 (by simpa using hid) hname

theorem find?_filter_map_id (a q : Nat) (h : Function → Function) (hq : q ≠ a)
    (hh : ∀ G, (h G).id = G.id) : ∀ L : List Function,
    ((L.filter (fun G => G.id != a)).map h).find? (fun G => G.id == q) =
      (L.find? (fun G => G.id == q)).map h
  | [] => rfl
  | G :: L => by
    by_cases h1 : G.id = a
    · have h2 : (G.id == q) = false := by
        simp only [beq_eq_false_iff_ne, ne_eq, h1]
        exact fun e => hq e.symm
      have hf : (G.id != a) = false := by simp [h1]
      simp only [List.filter_cons, hf, Bool.false_eq_true, if_false, List.find?_cons, h2]
      exact find?_filter_map_id a q h hq hh L
    · have h1b : (G.id != a) = true := by simpa using h1
      simp only [List.filter_cons, h1b, if_true, List.map_cons, List.find?_cons, hh]
      cases hGq : G.id == q
      · exact find?_filter_map_id a q h hq hh L
      · rfl

theorem commitReplacement_getName (H : Host) (M : Module) (p : Nat × Nat) (q : Nat)
    (h1 : q ≠ p.1) (h2 : q ≠ p.2) : (commitReplacement H M p).getName q = M.getName q := by
  rw [getName_eq, getName_eq, commitReplacement_functions,
    find?_filter_map_id p.1 q
      (fun G => Function.replaceUses p.1 p.2 { G with name := committedName H M p G })
      h1 (fun _ => rfl)]
  cases hfind : M.functions.find? (fun G => G.id == q) with
  | none => rfl
  | some G =>
    have h3 := List.find?_some hfind
    have h4 : G.id ≠ p.2 := by
      intro e
      apply h2
      rw [← e]
      exact (beq_iff_eq.1 h3).symm
    simp only [Option.map_some', Option.getD_some]
    exact committedName_of_ne H M p G h4

theorem mem_commitReplacement_iff (H : Host) (M : Module) (p : Nat × Nat) (G2 : Function) :
    G2 ∈ (commitReplacement H M p).functions ↔
      ∃ G ∈ M.functions, G.id ≠ p.1 ∧
        G2 = Function.replaceUses p.1 p.2 { G with name := committedName H M p G } := by
  rw [commitReplacement_functions]
  simp only [List.mem_map, List.mem_filter]
  constructor
  · rintro ⟨G, ⟨hG, hid⟩, rfl⟩
    exact ⟨G, hG, by simpa using hid, rfl⟩
  · rintro ⟨G, hG, hid, rfl⟩
    exact ⟨G, ⟨hG, by simpa using hid⟩, rfl⟩

/-- The names after the second loop. When the worklist has distinct first
components, distinct second components, no second component that is a first
component, every clone it names is in the module, and no function other than
the original and its clone has the name of an original that is named, then after
the second loop the module holds, for each entry, a function with the identity
of the clone and the name the original had before the loop. -/
theorem commit_names (H : Host) : ∀ (R : Replacements) (M : Module),
    (R.map Prod.fst).Nodup → (R.map Prod.snd).Nodup →
    (∀ q ∈ R, ∀ r ∈ R, q.2 ≠ r.1) →
    (∀ p ∈ R, ∃ N ∈ M.functions, N.id = p.2) →
    (∀ p ∈ R, M.getName p.1 = "" ∨
      ∀ G ∈ M.functions, G.id ≠ p.1 → G.id ≠ p.2 → G.name ≠ M.getName p.1) →
    ∀ p ∈ R, ∃ N2 ∈ (commit H M R).functions, N2.id = p.2 ∧ N2.name = M.getName p.1
  | [], _, _, _, _, _, _, p, hp => by simp at hp
  | p0 :: R, M, hfst, hsnd, hsep, hclone, hfree, p, hp => by
    rw [commit_cons]
    simp only [List.map_cons, List.nodup_cons] at hfst hsnd
    simp only [List.mem_cons] at hp
    rcases hp with rfl | hp
    · obtain ⟨N, hN, hNid⟩ := hclone p (by simp)
      have hne : N.id ≠ p.1 := by
        rw [hNid]
        exact hsep p (by simp) p (by simp)
      have hmem : Function.replaceUses p.1 p.2 { N with name := committedName H M p N } ∈
          (commitReplacement H M p).functions :=
        (mem_commitReplacement_iff H M p _).2 ⟨N, hN, hne, rfl⟩
      have hred := mem_commit_redirected H R (commitReplacement H M p) _ hmem
        (by
          intro hm
          obtain ⟨r, hr, hrid⟩ := List.mem_map.1 hm
          have e : r.1 = p.2 := hrid.trans hNid
          exact hsep p (by simp) r (by simp [hr]) e.symm)
        (by
          intro hm
          have e : p.2 ∈ R.map Prod.snd := hNid ▸ hm
          exact hsnd.1 e)
      exact ⟨_, hred, hNid, committedName_clone H M p N hNid (hfree p (by simp))⟩
    · have hp1 : p.1 ≠ p0.1 := by
        intro e
        exact hfst.1 (e ▸ List.mem_map_of_mem Prod.fst hp)
      have hp2 : p.1 ≠ p0.2 := fun e => hsep p0 (by simp) p (by simp [hp]) e.symm
      have ih := commit_names H R (commitReplacement H M p0) hfst.2 hsnd.2
        (fun a ha b hb => hsep a (by simp [ha]) b (by simp [hb]))
        (by
          intro q hq
          obtain ⟨N, hN, hNid⟩ := hclone q (by simp [hq])
          have hne : N.id ≠ p0.1 := by
            rw [hNid]
            exact hsep q (by simp [hq]) p0 (by simp)
          exact ⟨_, (mem_commitReplacement_iff H M p0 _).2 ⟨N, hN, hne, rfl⟩, hNid⟩)
        (by
          intro q hq
          have hq1 : q.1 ≠ p0.1 := by
            intro e
            exact hfst.1 (e ▸ List.mem_map_of_mem Prod.fst hq)
          have hq2 : q.1 ≠ p0.2 := fun e => hsep p0 (by simp) q (by simp [hq]) e.symm
          rw [commitReplacement_getName H M p0 q.1 hq1 hq2]
          rcases hfree q (by simp [hq]) with h0 | hfq
          · exact Or.inl h0
          · by_cases h0 : M.getName q.1 = ""
            · exact Or.inl h0
            · right
              intro G2 hG2 hG2a hG2b hname
              obtain ⟨G, hG, hGid, rfl⟩ := (mem_commitReplacement_iff H M p0 G2).1 hG2
              have hname2 : committedName H M p0 G = M.getName q.1 := hname
              have hGa : G.id ≠ q.1 := hG2a
              have hGb : G.id ≠ q.2 := hG2b
              by_cases hG0 : G.id = p0.2
              · rw [committedName_clone H M p0 G hG0 (hfree p0 (by simp))] at hname2
                rcases getName_mem_or_empty M p0.1 with he | ⟨F0, hF0, hF0id, hF0name⟩
                · exact h0 (hname2.symm.trans he)
                · exact hfq F0 hF0 (by rw [hF0id]; exact fun e => hq1 e.symm)
                    (by rw [hF0id]; exact fun e => hsep q (by simp [hq]) p0 (by simp) e.symm)
                    (hF0name.trans hname2)
              · rw [committedName_of_ne H M p0 G hG0] at hname2
                exact hfq G hG hGa hGb hname2)
        p hp
      rw [commitReplacement_getName H M p0 p.1 hp1 hp2] at ih
      exact ih


/-! ## Lemmas on the names and identities after the first loop -/

theorem newFunction_name (H : Host) (M : Module) (F : Function) :
    (newFunction H M F).name = createValueName H (M.functions.map (fun G => G.name)) F.name := by
  simp only [newFunction]
  rw [(copyArgs_unchanged H _ _ _).1]
  rfl

theorem clonesOf_ids_nodup (H : Host) : ∀ (Fs : List Function) (M : Module),
    ((clonesOf H Fs M).map (fun N => N.id)).Nodup
  | [], _ => List.nodup_nil
  | F :: Fs, M => by
    simp only [clonesOf]
    by_cases hF : F.type ≠ remapFunctionType H F.type
    · simp only [hF, ne_eq, not_false_eq_true, if_true, List.map_cons, List.nodup_cons]
      refine ⟨?_, clonesOf_ids_nodup H Fs _⟩
      intro hmem
      obtain ⟨N, hN, hid⟩ := List.mem_map.1 hmem
      have h1 := clonesOf_fresh H Fs _ N hN
      have h2 := (Module.mk (M.functions ++ [newFunction H M F])).lt_freshId (newFunction H M F)
        (by simp)
      omega
    · simp only [hF, if_false]
      exact clonesOf_ids_nodup H Fs M

theorem worklistOf_snd_nodup (H : Host) (M : Module) :
    ((worklistOf H M.functions M).map Prod.snd).Nodup := by
  rw [worklistOf_snd]
  exact clonesOf_ids_nodup H _ _

theorem after_phase1_ids_nodup (H : Host) (M : Module)
    (hM : (M.functions.map (fun G => G.id)).Nodup) :
    ((M.functions ++ clonesOf H M.functions M).map (fun G => G.id)).Nodup := by
  rw [List.map_append, List.nodup_append]
  refine ⟨hM, clonesOf_ids_nodup H _ _, ?_⟩
  intro a ha hb
  obtain ⟨G, hG, rfl⟩ := List.mem_map.1 ha
  obtain ⟨N, hN, hid⟩ := List.mem_map.1 hb
  have h1 := M.lt_freshId G hG
  have h2 := clonesOf_fresh H _ _ N hN
  omega

theorem clonesOf_name (H : Host) (hH : H.Fresh) : ∀ (Fs : List Function) (M : Module),
    (∀ F ∈ Fs, F ∈ M.functions) →
    ∀ N ∈ clonesOf H Fs M, N.name = "" ∨ N.name ∉ M.functions.map (fun G => G.name)
  | [], _, _, N, hN => by simp [clonesOf] at hN
  | F :: Fs, M, hFs, N, hN => by
    simp only [clonesOf] at hN
    by_cases hF : F.type ≠ remapFunctionType H F.type
    · simp only [hF, ne_eq, not_false_eq_true, if_true, List.mem_cons] at hN
      rcases hN with rfl | hN
      · rw [newFunction_name]
        exact createValueName_fresh H hH _ _
          (List.mem_map_of_mem (fun G => G.name) (hFs F (by simp)))
      · have ih := clonesOf_name H hH Fs { functions := M.functions ++ [newFunction H M F] }
          (fun F2 hF2 => List.mem_append_left _ (hFs F2 (by simp [hF2]))) N hN
        rcases ih with ih | ih
        · exact Or.inl ih
        · right
          intro hmem
          apply ih
          simp only [List.map_append, List.mem_append]
          exact Or.inl hmem
    · simp only [hF, if_false] at hN
      exact clonesOf_name H hH Fs M (fun F2 hF2 => hFs F2 (by simp [hF2])) N hN

theorem after_phase1_names_free (H : Host) (hH : H.Fresh) (M : Module)
    (hM : (M.functions.map (fun G => G.id)).Nodup)
    (hnames : namesDistinct (M.functions.map (fun G => G.name))) :
    ∀ p ∈ worklistOf H M.functions M,
      (Module.mk (M.functions ++ clonesOf H M.functions M)).getName p.1 = "" ∨
      ∀ G ∈ (Module.mk (M.functions ++ clonesOf H M.functions M)).functions,
        G.id ≠ p.1 → G.id ≠ p.2 →
        G.name ≠ (Module.mk (M.functions ++ clonesOf H M.functions M)).getName p.1 := by
  intro p hp
  have h : p.1 ∈ (worklistOf H M.functions M).map Prod.fst := List.mem_map_of_mem _ hp
  rw [worklistOf_fst] at h
  obtain ⟨F, hF, hid⟩ := List.mem_map.1 h
  have hFM : F ∈ M.functions := (List.mem_filter.1 hF).1
  have hget : (Module.mk (M.functions ++ clonesOf H M.functions M)).getName p.1 = F.name := by
    rw [← hid]
    exact getName_of_mem _ (after_phase1_ids_nodup H M hM) F (List.mem_append_left _ hFM)
  rw [hget]
  by_cases h0 : F.name = ""
  · exact Or.inl h0
  · right
    intro G hG hG1 _ hname
    rcases List.mem_append.1 hG with hG | hG
    · have hne : F ≠ G := by
        intro e
        apply hG1
        rw [← e, ← hid]
      rcases namesDistinct_map_ne (fun G : Function => G.name) M.functions hnames F hFM G hG hne
        with h1 | h1
      · exact h0 h1
      · exact h1 hname.symm
    · rcases clonesOf_name H hH M.functions M (fun _ h => h) G hG with h1 | h1
      · exact h0 (hname.symm.trans h1)
      · apply h1
        rw [hname]
        exact List.mem_map_of_mem (fun G => G.name) hFM


/-! ## Lemmas on the argument names of a clone -/

theorem namesDistinct_append_cons (l1 l2 : List String) (a : String)
    (h : namesDistinct (l1 ++ a :: l2)) : a = "" ∨ a ∉ l1 := by
  by_cases ha : a = ""
  · exact Or.inl ha
  · right
    intro hmem
    unfold namesDistinct at h
    rw [List.filter_append, List.nodup_append] at h
    have h1 : a ∈ l1.filter (fun N => N != "") := List.mem_filter.2 ⟨hmem, by simpa using ha⟩
    have h2 : a ∈ (a :: l2).filter (fun N => N != "") :=
      List.mem_filter.2 ⟨by simp, by simpa using ha⟩
    exact h.2.2 h1 h2

theorem eraseIdx_length_append_cons {α : Type} (pre : List α) (x : α) (post : List α) :
    (pre ++ x :: post).eraseIdx pre.length = pre ++ post := by
  induction pre with
  | nil => rfl
  | cons a pre ih => simpa using ih

theorem set_length_append_cons {α : Type} (pre : List α) (x y : α) (post : List α) :
    (pre ++ x :: post).set pre.length y = pre ++ y :: post := by
  induction pre with
  | nil => rfl
  | cons a pre ih => simp

theorem setArgName_args (H : Host) (G : Function) (pre rest : List Argument) (T : IRType)
    (N : String) (hG : G.args = pre ++ { name := "", type := T } :: rest)
    (hrest : ∀ B ∈ rest, B.name = "") (hN : N = "" ∨ N ∉ pre.map (fun B => B.name)) :
    (G.setArgName H pre.length N).args = pre ++ { name := N, type := T } :: rest := by
  have hget : G.args[pre.length]? = some { name := "", type := T } := by
    rw [hG]
    exact getElem?_length_append_cons pre _ rest
  unfold Function.setArgName
  rw [hget]
  simp only
  by_cases h0 : "" = N
  · rw [if_pos h0, hG, ← h0]
  · rw [if_neg h0]
    simp only
    rw [hG, eraseIdx_length_append_cons, set_length_append_cons]
    congr 2
    rw [createValueName_of_free]
    right
    intro hmem
    simp only [List.map_append, List.mem_append, List.mem_map] at hmem
    rcases hmem with hmem | ⟨B, hB, hBn⟩
    · rcases hN with hN | hN
      · exact h0 hN.symm
      · exact hN (by simpa using hmem)
    · exact h0 ((hrest B hB).symm.trans hBn)

theorem copyArgs_args (H : Host) : ∀ (As pre : List Argument) (Ts : List IRType) (G : Function),
    G.args = pre ++ Ts.map (fun T => { name := "", type := T }) → As.length = Ts.length →
    namesDistinct (pre.map (fun B => B.name) ++ As.map (fun B => B.name)) →
    (copyArgs H As pre.length G).args =
      pre ++ List.zipWith (fun A T => { name := A.name, type := T }) As Ts
  | [], pre, Ts, G, hG, hlen, _ => by
    have hTs : Ts = [] := List.length_eq_zero.1 hlen.symm
    simp [copyArgs, hG, hTs]
  | A :: As, pre, [], G, _, hlen, _ => by simp at hlen
  | A :: As, pre, T :: Ts, G, hG, hlen, hnames => by
    simp only [copyArgs, List.zipWith_cons_cons]
    have hstep := setArgName_args H G pre (Ts.map (fun T => { name := "", type := T })) T A.name
      (by simpa using hG)
      (by
        intro B hB
        obtain ⟨T2, _, rfl⟩ := List.mem_map.1 hB
        rfl)
      (namesDistinct_append_cons _ _ _ (by simpa using hnames))
    have ih := copyArgs_args H As (pre ++ [{ name := A.name, type := T }]) Ts
      (G.setArgName H pre.length A.name) (by simpa using hstep) (by simpa using hlen)
      (by simpa using hnames)
    simpa using ih

theorem map_name_zipWith : ∀ (As : List Argument) (Ts : List IRType), As.length = Ts.length →
    (List.zipWith (fun A T => ({ name := A.name, type := T } : Argument)) As Ts).map
      (fun B => B.name) = As.map (fun B => B.name) ∧
    (List.zipWith (fun A T => ({ name := A.name, type := T } : Argument)) As Ts).map
      (fun B => B.type) = Ts
  | [], [], _ => ⟨rfl, rfl⟩
  | [], _ :: _, h => by simp at h
  | _ :: _, [], h => by simp at h
  | A :: As, T :: Ts, h => by
    have ih := map_name_zipWith As Ts (by simpa using h)
    simp [ih.1, ih.2]

/-- The arguments of a clone, when the original has one argument for each
parameter and its named arguments have distinct names: position by position,
the name of the argument of the original and the remapped parameter type. -/
theorem newFunction_args (H : Host) (M : Module) (F : Function)
    (hlen : F.args.length = F.type.params.length)
    (hnames : namesDistinct (F.args.map (fun A => A.name))) :
    (newFunction H M F).args.map (fun B => B.name) = F.args.map (fun B => B.name) ∧
    (newFunction H M F).args.map (fun B => B.type) = (remapFunctionType H F.type).params := by
  have hlen2 : F.args.length = (remapFunctionType H F.type).params.length := by
    rw [remapFunctionType_params, List.length_map]
    exact hlen
  have h := copyArgs_args H F.args [] (remapFunctionType H F.type).params
    (createdFunction H M F) rfl hlen2 (by simpa using hnames)
  have h2 : (newFunction H M F).args = (copyArgs H F.args 0 (createdFunction H M F)).args := rfl
  rw [h2]
  simp only [List.length_nil, List.nil_append] at h
  rw [h]
  exact map_name_zipWith F.args _ hlen2

theorem mem_commit_origin (H : Host) (R : Replacements) (M : Module) (G2 : Function)
    (hG2 : G2 ∈ (commit H M R).functions) :
    ∃ G0 ∈ M.functions, G2.id = G0.id ∧ G2.linkage = G0.linkage ∧ G2.type = G0.type ∧
      G2.args = G0.args := by
  have h : G2.unnamed ∈ (commit H M R).functions.map Function.unnamed :=
    List.mem_map_of_mem _ hG2
  rw [commit_map_unnamed] at h
  obtain ⟨G1, hG1, h3⟩ := List.mem_map.1 h
  obtain ⟨G0, hG0, rfl⟩ := List.mem_map.1 (List.mem_filter.1 hG1).1
  have e1 : (Function.redirected R G0.unnamed).id = G2.unnamed.id := congrArg Function.id h3
  have e2 : (Function.redirected R G0.unnamed).linkage = G2.unnamed.linkage :=
    congrArg Function.linkage h3
  have e3 : (Function.redirected R G0.unnamed).type = G2.unnamed.type :=
    congrArg Function.type h3
  have e4 : (Function.redirected R G0.unnamed).args = G2.unnamed.args :=
    congrArg Function.args h3
  exact ⟨G0, hG0, e1.symm, e2.symm, e3.symm, e4.symm⟩

/-! ## Claims on the type remapper -/

/-- C1: pointer case of the type remapper. For every pointee type `E` and address
space `A`, `remapType` of pointer-to-`E` in `A` is pointer-to-`remapType E` in the
generic address space when `A` is special, and pointer-to-`remapType E` in the
same address space `A` when it is not; the `PointerType` overload gives the same
pointer type. -/
theorem remapType_pointer_case (H : Host) (E : IRType) (A : Nat) :
    (H.isSpecialAS A = true →
      remapType H (.pointer E A) = .pointer (remapType H E) H.Generic) ∧
    (H.isSpecialAS A = false →
      remapType H (.pointer E A) = .pointer (remapType H E) A) ∧
    remapType H (.pointer E A) =
      (remapPointerType H { elementType := E, addressSpace := A }).toType := by
  refine ⟨fun h => ?_, fun h => ?_, ?_⟩
  · rw [remapType_pointer]
    simp [h]
  · rw [remapType_pointer]
    simp [h]
  · rw [remapType_pointer]
    unfold remapPointerType
    split <;> rfl

/-- Witness of C1 in the scenario environment: a pointer in the special address
space 10 moves to the generic address space 0, a pointer in the address space 3
stays in 3. -/
theorem remapType_pointer_case_witness :
    remapType scenarioHost (.pointer (.pointer i32 3) 10) = .pointer (.pointer i32 3) 0 ∧
    remapType scenarioHost (.pointer (.pointer i32 10) 3) = .pointer (.pointer i32 0) 3 :=
  ⟨(remapType_pointer_case scenarioHost (.pointer i32 3) 10).1 (by decide),
   (remapType_pointer_case scenarioHost (.pointer i32 10) 3).2.1 (by decide)⟩

/-- C2: signature case of the type remapper. For the function type with return
type `R`, parameters `P` and variadic flag `v`, the remapped function type has
return type `remapType R`, as many parameters as `P`, at every position `i` the
type `remapType` of the i-th parameter, and the flag `v`. -/
theorem remapFunctionType_signature_case (H : Host) (R : IRType) (P : List IRType) (v : Bool) :
    (remapFunctionType H { returnType := R, params := P, isVarArg := v }).returnType
      = remapType H R ∧
    (remapFunctionType H { returnType := R, params := P, isVarArg := v }).params.length
      = P.length ∧
    (∀ i : Nat, (remapFunctionType H { returnType := R, params := P, isVarArg := v }).params[i]?
      = (P[i]?).map (remapType H)) ∧
    (remapFunctionType H { returnType := R, params := P, isVarArg := v }).params
      = P.map (remapType H) ∧
    (remapFunctionType H { returnType := R, params := P, isVarArg := v }).isVarArg = v := by
  rw [remapFunctionType_eq]
  simp

/-- C3: idempotence of the type remapper, for every environment. Remapping a
remapped type gives the remapped type again, also when a function type is the
pointee, and remapping a remapped signature gives the remapped signature again. -/
theorem remapType_idempotent (H : Host) :
    (∀ T : IRType, remapType H (remapType H T) = remapType H T) ∧
    (∀ (S : FunctionType) (A : Nat),
      remapType H (remapType H (.pointer S.toType A)) = remapType H (.pointer S.toType A)) ∧
    (∀ S : FunctionType,
      remapFunctionType H (remapFunctionType H S) = remapFunctionType H S) :=
  ⟨remapType_remapType H, fun S A => remapType_remapType H (.pointer S.toType A),
   remapFunctionType_remapFunctionType H⟩

/-- C4 as stated fails: with address space 10 special and the generic address
space 0 not special, the type pointer-to-(function returning `ptr<10,i32>`) is
built from pointer, function and leaf types only, and its remapped type still
contains the pointer in address space 10. -/
theorem remapType_strips_all_counterexample :
    scenarioHost.isSpecialAS scenarioHost.Generic = false ∧
    (IRType.pointer (.function (.pointer i32 10) [] false) 0).noAggregate = true ∧
    remapType scenarioHost (.pointer (.function (.pointer i32 10) [] false) 0)
      = .pointer (.function (.pointer i32 10) [] false) 0 ∧
    (remapType scenarioHost
      (.pointer (.function (.pointer i32 10) [] false) 0)).hasSpecialPointer scenarioHost
      = true := by
  decide

/-- C4 amended: when the generic address space is not special, the remapped type
of a chain of pointers over a leaf that is neither an aggregate nor a function
type contains no pointer in a special address space, and the remapped signature
of a function whose return and parameter types are such chains contains none. -/
theorem remapType_strips_pointer_chains (H : Host) (hG : H.isSpecialAS H.Generic = false) :
    (∀ T : IRType, T.isPointerChain = true → (remapType H T).hasSpecialPointer H = false) ∧
    (∀ S : FunctionType, S.returnType.isPointerChain = true →
      (∀ P ∈ S.params, P.isPointerChain = true) →
      (remapFunctionType H S).toType.hasSpecialPointer H = false) := by
  refine ⟨hasSpecialPointer_remapType_chain H hG, fun S hR hP => ?_⟩
  rw [remapFunctionType_eq]
  simp only [FunctionType.toType, IRType.hasSpecialPointer, Bool.or_eq_false_iff]
  exact ⟨hasSpecialPointer_remapType_chain H hG _ hR,
    hasSpecialPointerList_map_remapType H hG _ hP⟩

/-- Witness of the amended C4 in the scenario environment, on `ptr<10, ptr<10, i32>>`
and on the signature `(ptr<10,i32>) -> ptr<10,i32>`. -/
theorem remapType_strips_pointer_chains_witness :
    scenarioHost.isSpecialAS scenarioHost.Generic = false ∧
    (remapType scenarioHost (.pointer (.pointer i32 10) 10)).hasSpecialPointer scenarioHost
      = false ∧
    (remapFunctionType scenarioHost
      { returnType := .pointer i32 10, params := [.pointer i32 10], isVarArg := false
      }).toType.hasSpecialPointer scenarioHost = false :=
  ⟨by decide,
   (remapType_strips_pointer_chains scenarioHost (by decide)).1 _ (by decide),
   (remapType_strips_pointer_chains scenarioHost (by decide)).2 _ (by decide) (by decide)⟩

/-- C5 as stated fails: in the scenario environment, for the function type
`() -> ptr<10,i32>` the hook `remapType` returns the function type itself, which is
not the remapped signature `() -> ptr<0,i32>`, and the hook applied to a pointer
to it does not have the remapped signature as its pointee. -/
theorem remapType_hook_signature_counterexample :
    remapType scenarioHost
        (FunctionType.toType { returnType := .pointer i32 10, params := [], isVarArg := false })
      ≠ (remapFunctionType scenarioHost
          { returnType := .pointer i32 10, params := [], isVarArg := false }).toType ∧
    remapType scenarioHost (.pointer
        (FunctionType.toType { returnType := .pointer i32 10, params := [], isVarArg := false }) 0)
      ≠ .pointer (remapFunctionType scenarioHost
          { returnType := .pointer i32 10, params := [], isVarArg := false }).toType 0 := by
  decide

/-- C5 amended: the hook `remapType` returns every function type as it is, and on
a pointer to a function type it only remaps the address space of the pointer, the
pointee staying the function type itself; so the hook agrees with the signature
remapper on a function type exactly when that signature is a fixed point of the
signature remapper. -/
theorem remapType_hook_on_function_types (H : Host) (S : FunctionType) (A : Nat) :
    remapType H S.toType = S.toType ∧
    remapType H (.pointer S.toType A)
      = .pointer S.toType (if H.isSpecialAS A then H.Generic else A) ∧
    (remapType H S.toType = (remapFunctionType H S).toType ↔ remapFunctionType H S = S) := by
  refine ⟨rfl, ?_, ?_⟩
  · rw [remapType_pointer]
    split <;> rfl
  · have h1 : remapType H S.toType = S.toType := rfl
    rw [h1]
    constructor
    · intro h
      simp only [FunctionType.toType, IRType.function.injEq] at h
      cases hS : remapFunctionType H S with
      | mk r ps v =>
        rw [hS] at h
        obtain ⟨h1, h2, h3⟩ := h
        cases S
        simp_all
    · intro h
      rw [h]

/-- C6: leaf case of the type remapper. Every type that is not a pointer type is
returned as it is; an array, vector or struct type that holds a pointer in a
special address space is returned as it is and still contains that pointer. -/
theorem remapType_leaf_case (H : Host) (T : IRType) (hT : T.isPointerTy = false) :
    remapType H T = T ∧
    (∀ (E : IRType) (A n : Nat), H.isSpecialAS A = true →
      remapType H (.array (.pointer E A) n) = .array (.pointer E A) n ∧
      remapType H (.vector (.pointer E A) n) = .vector (.pointer E A) n ∧
      (remapType H (.array (.pointer E A) n)).hasSpecialPointer H = true ∧
      (remapType H (.vector (.pointer E A) n)).hasSpecialPointer H = true) ∧
    (∀ (E : IRType) (A : Nat) (Ts : List IRType) (p : Bool), H.isSpecialAS A = true →
      remapType H (.struct (.pointer E A :: Ts) p) = .struct (.pointer E A :: Ts) p ∧
      (remapType H (.struct (.pointer E A :: Ts) p)).hasSpecialPointer H = true) := by
  refine ⟨remapType_of_not_pointer H T hT, fun E A n hA => ?_, fun E A Ts p hA => ?_⟩
  · simp [remapType, IRType.hasSpecialPointer, hA]
  · simp [remapType, IRType.hasSpecialPointer, IRType.hasSpecialPointerList, hA]

/-- Witness of C6 in the scenario environment: the struct type `{ptr<10,i32>}` is
not a pointer type and is returned as it is. -/
theorem remapType_leaf_case_witness :
    (IRType.struct [.pointer i32 10] false).isPointerTy = false ∧
    remapType scenarioHost (.struct [.pointer i32 10] false) = .struct [.pointer i32 10] false :=
  ⟨by decide, (remapType_leaf_case scenarioHost (.struct [.pointer i32 10] false) (by decide)).1⟩

/-! ## Claims on the module rewriter -/

/-- C7: return contract of the module rewriter. With enough iterations allowed
for the first loop, `runOnModule` returns, and the returned flag is true exactly
when the worklist is not empty, which is exactly when some function of the module
has a function type the signature remapper changes; the flag is false exactly
when the type of every function is a fixed point of the signature remapper. -/
theorem runOnModule_return_contract (H : Host) (M : Module) (fuel : Nat)
    (hfuel : 2 * M.functions.length + 1 ≤ fuel) :
    ∃ (M1 : Module) (R : Replacements) (M2 : Module) (b : Bool),
      analyze H fuel M = some (M1, R) ∧ runOnModule H fuel M = some (M2, b) ∧
      (b = true ↔ R ≠ []) ∧
      (R ≠ [] ↔ ∃ F ∈ M.functions, remapFunctionType H F.type ≠ F.type) ∧
      (b = false ↔ ∀ F ∈ M.functions, remapFunctionType H F.type = F.type) := by
  obtain ⟨h1, h2⟩ := runOnModule_eq H M fuel hfuel
  refine ⟨_, _, _, _, h1, h2, ?_, ?_, ?_⟩
  · simp [List.length_pos]
  · rw [Ne, worklistOf_eq_nil_iff]
    simp
  · rw [← worklistOf_eq_nil_iff]
    simp

/-- Witness of C7 on the scenario module, with five iterations allowed. -/
theorem runOnModule_return_contract_witness :
    2 * scenarioModule.functions.length + 1 ≤ 5 ∧
    ∃ (M1 : Module) (R : Replacements) (M2 : Module) (b : Bool),
      analyze scenarioHost 5 scenarioModule = some (M1, R) ∧
      runOnModule scenarioHost 5 scenarioModule = some (M2, b) ∧
      (b = true ↔ R ≠ []) ∧
      (R ≠ [] ↔ ∃ F ∈ scenarioModule.functions, remapFunctionType scenarioHost F.type ≠ F.type) ∧
      (b = false ↔
        ∀ F ∈ scenarioModule.functions, remapFunctionType scenarioHost F.type = F.type) :=
  ⟨by decide, runOnModule_return_contract scenarioHost scenarioModule 5 (by decide)⟩

/-- C8: fixed point on clean input. When no function signature of the module
contains a pointer in a special address space, the first loop ends with the
module as it was and an empty worklist, and `runOnModule` returns false and
leaves the module identical: same functions in the same order, each with the
same identity, name, linkage, type, arguments and body. -/
theorem runOnModule_clean_input (H : Host) (M : Module) (fuel : Nat)
    (hM : ∀ F ∈ M.functions, F.type.toType.hasSpecialPointer H = false)
    (hfuel : M.functions.length + 1 ≤ fuel) :
    analyze H fuel M = some (M, []) ∧ runOnModule H fuel M = some (M, false) := by
  have h := analyze_of_all_fixed H M fuel
    (fun F hF => remapFunctionType_of_no_special H F.type (hM F hF)) hfuel
  refine ⟨h, ?_⟩
  simp [runOnModule, h, commit]

/-- Witness of C8: the module whose only function uses only address space 0, in
the scenario environment. -/
theorem runOnModule_clean_input_witness :
    (∀ F ∈ cleanModule.functions, F.type.toType.hasSpecialPointer scenarioHost = false) ∧
    analyze scenarioHost 2 cleanModule = some (cleanModule, []) ∧
    runOnModule scenarioHost 2 cleanModule = some (cleanModule, false) :=
  ⟨by decide, runOnModule_clean_input scenarioHost cleanModule 2 (by decide) (by decide)⟩

/-- C9: affected signatures are replaced. If a function `F` of the module has as
return type or as a parameter type a pointer in a special address space `A` that
is not the generic one, then the pass returns true, no function with the identity
of `F` is left in the module, and the module holds a function `NewF`, paired with
`F` in the worklist, of type `remapFunctionType F.type` and the linkage of `F`,
with the pointer in the generic address space at the same place of the signature.
On the scenario module both `foo` and `bar` are in the worklist and the pass
returns true with `scenarioResult`, the module of `foo(ptr<0,i32>)->void` and
`bar()->ptr<0,i32>`. -/
theorem runOnModule_replaces_affected :
    (∀ (H : Host) (M : Module) (F : Function) (E : IRType) (A : Nat) (fuel : Nat),
      F ∈ M.functions → H.isSpecialAS A = true → A ≠ H.Generic →
      (F.type.returnType = .pointer E A ∨ .pointer E A ∈ F.type.params) →
      2 * M.functions.length + 1 ≤ fuel →
      ∃ (M1 : Module) (R : Replacements) (M2 : Module),
        analyze H fuel M = some (M1, R) ∧ runOnModule H fuel M = some (M2, true) ∧
        (∀ G ∈ M2.functions, G.id ≠ F.id) ∧
        ∃ NewF ∈ M2.functions, (F.id, NewF.id) ∈ R ∧
          NewF.type = remapFunctionType H F.type ∧ NewF.linkage = F.linkage ∧
          (F.type.returnType = .pointer E A →
            NewF.type.returnType = .pointer (remapType H E) H.Generic) ∧
          (∀ i : Nat, F.type.params[i]? = some (.pointer E A) →
            NewF.type.params[i]? = some (.pointer (remapType H E) H.Generic))) ∧
    (analyze scenarioHost 5 scenarioModule).map Prod.snd
      = some [(scenarioFoo.id, 2), (scenarioBar.id, 3)] ∧
    runOnModule scenarioHost 5 scenarioModule = some (scenarioResult, true) := by
  refine ⟨?_, by decide, by decide⟩
  intro H M F E A fuel hF hA hG hsig hfuel
  obtain ⟨h1, h2⟩ := runOnModule_eq H M fuel hfuel
  have hch : F.type ≠ remapFunctionType H F.type :=
    remapFunctionType_ne_of_special H F.type E A hA hG hsig
  obtain ⟨Mx, hw, hc, hle⟩ := clonesOf_of_changed H M.functions M F hF hch
  have hb : decide ((worklistOf H M.functions M).length > 0) = true := by
    simp only [decide_eq_true_eq]
    exact List.length_pos_of_mem hw
  rw [hb] at h2
  have hFfst : F.id ∈ (worklistOf H M.functions M).map Prod.fst :=
    List.mem_map_of_mem Prod.fst hw
  have hNid : (newFunction H Mx F).id ∉ (worklistOf H M.functions M).map Prod.fst := by
    intro hmem
    obtain ⟨r, hr, hrid⟩ := List.mem_map.1 hmem
    exact worklistOf_separated H M _ hw r hr (by rw [hrid, newFunction_id])
  obtain ⟨N2, hN2, hN2eq⟩ := mem_commit_of_mem H (worklistOf H M.functions M)
    { functions := M.functions ++ clonesOf H M.functions M } (newFunction H Mx F)
    (List.mem_append_right _ hc) hNid
  have hid : N2.id = Mx.freshId := by
    have h : N2.unnamed.id = ((newFunction H Mx F).redirected _).unnamed.id :=
      congrArg Function.id hN2eq
    exact h.trans (newFunction_id H Mx F)
  have hty : N2.type = remapFunctionType H F.type := by
    have h : N2.unnamed.type = ((newFunction H Mx F).redirected _).unnamed.type :=
      congrArg Function.type hN2eq
    exact h.trans (newFunction_type H Mx F)
  have hlk : N2.linkage = F.linkage := by
    have h : N2.unnamed.linkage = ((newFunction H Mx F).redirected _).unnamed.linkage :=
      congrArg Function.linkage hN2eq
    exact h.trans (newFunction_linkage H Mx F)
  refine ⟨_, _, _, h1, h2, ?_, N2, hN2, ?_, hty, hlk, ?_, ?_⟩
  · intro G hG hGF
    exact mem_commit_id H _ _ G hG (hGF ▸ hFfst)
  · rw [hid]
    exact hw
  · intro hr
    rw [hty, remapFunctionType_eq]
    simp only [hr, remapType_pointer, hA, if_true]
  · intro i hi
    rw [hty, remapFunctionType_eq]
    simp only [List.getElem?_map, hi, Option.map_some', remapType_pointer, hA, if_true]

/-- Witness of C9 on the function `foo` of the scenario module, whose parameter is
a pointer in the special address space 10. -/
theorem runOnModule_replaces_affected_witness :
    ∃ (M1 : Module) (R : Replacements) (M2 : Module),
      analyze scenarioHost 5 scenarioModule = some (M1, R) ∧
      runOnModule scenarioHost 5 scenarioModule = some (M2, true) ∧
      (∀ G ∈ M2.functions, G.id ≠ scenarioFoo.id) ∧
      ∃ NewF ∈ M2.functions, (scenarioFoo.id, NewF.id) ∈ R ∧
        NewF.type = remapFunctionType scenarioHost scenarioFoo.type ∧
        NewF.linkage = scenarioFoo.linkage ∧
        (scenarioFoo.type.returnType = .pointer i32 10 →
          NewF.type.returnType = .pointer (remapType scenarioHost i32) scenarioHost.Generic) ∧
        (∀ i : Nat, scenarioFoo.type.params[i]? = some (.pointer i32 10) →
          NewF.type.params[i]? = some (.pointer (remapType scenarioHost i32) scenarioHost.Generic)) :=
  runOnModule_replaces_affected.1 scenarioHost scenarioModule scenarioFoo i32 10 5
    (by decide) (by decide) (by decide) (by decide) (by decide)

/-- C10: referential integrity after the pass. For a module whose functions have
distinct identities, with enough iterations allowed, the pass returns, and in the
module it leaves: no function has the identity of a replaced function (the first
component of a worklist entry, that is a function whose type the signature
remapper changes); no operand of any instruction is a replaced function; the
clone of every replaced function is in the module; names apart, the functions
are those present before the second loop that are not replaced, in the same
order, each operand redirected along the worklist; and the redirection sends a
replaced function to its clone and leaves every other operand as it is. -/
theorem runOnModule_referential_integrity (H : Host) (M : Module) (fuel : Nat)
    (hM : (M.functions.map (fun G => G.id)).Nodup)
    (hfuel : 2 * M.functions.length + 1 ≤ fuel) :
    ∃ (M1 : Module) (R : Replacements) (M2 : Module) (b : Bool),
      analyze H fuel M = some (M1, R) ∧ runOnModule H fuel M = some (M2, b) ∧
      R.map Prod.fst = (M.functions.filter
        (fun F => decide (F.type ≠ remapFunctionType H F.type))).map (fun F => F.id) ∧
      (∀ p ∈ R, ∀ G ∈ M2.functions, G.id ≠ p.1) ∧
      (∀ p ∈ R, M2.hasUseOf p.1 = false) ∧
      (∀ p ∈ R, ∃ N ∈ M2.functions, N.id = p.2) ∧
      M2.functions.map Function.unnamed =
        ((M1.functions.map Function.unnamed).filter
          (fun G => decide (G.id ∉ R.map Prod.fst))).map (Function.redirected R) ∧
      (∀ p ∈ R, redirect R (.function p.1) = .function p.2) ∧
      (∀ V : Value, (∀ p ∈ R, V ≠ .function p.1) → redirect R V = V) := by
  obtain ⟨h1, h2⟩ := runOnModule_eq H M fuel hfuel
  have hsep := worklistOf_separated H M
  refine ⟨_, _, _, _, h1, h2, worklistOf_fst H M.functions M, ?_, ?_, ?_, ?_, ?_, ?_⟩
  · intro p hp G hG hGp
    exact mem_commit_id H _ _ G hG (hGp ▸ List.mem_map_of_mem Prod.fst hp)
  · exact commit_hasUseOf H _ _ hsep
  · intro p hp
    have h : p.2 ∈ (worklistOf H M.functions M).map Prod.snd := List.mem_map_of_mem _ hp
    rw [worklistOf_snd] at h
    obtain ⟨N, hN, hNid⟩ := List.mem_map.1 h
    have hNfst : N.id ∉ (worklistOf H M.functions M).map Prod.fst := by
      intro hmem
      obtain ⟨r, hr, hrid⟩ := List.mem_map.1 hmem
      exact hsep p hp r hr (by rw [hrid, hNid])
    obtain ⟨N2, hN2, hN2eq⟩ := mem_commit_of_mem H (worklistOf H M.functions M)
      { functions := M.functions ++ clonesOf H M.functions M } N
      (List.mem_append_right _ hN) hNfst
    refine ⟨N2, hN2, ?_⟩
    have h3 : N2.unnamed.id = (N.redirected (worklistOf H M.functions M)).unnamed.id :=
      congrArg Function.id hN2eq
    exact h3.trans hNid
  · exact commit_map_unnamed H _ _
  · intro p hp
    exact redirect_fst _ p hp (worklistOf_fst_nodup H M hM) hsep
  · intro V hV
    exact redirect_of_not_fst _ V hV

/-- Witness of C10 on the scenario module, where `foo` calls `bar` and itself and
both are replaced: after the pass no operand is the function 0 or the function 1. -/
theorem runOnModule_referential_integrity_witness :
    (scenarioModule.functions.map (fun G => G.id)).Nodup ∧
    ∃ (M1 : Module) (R : Replacements) (M2 : Module) (b : Bool),
      analyze scenarioHost 5 scenarioModule = some (M1, R) ∧
      runOnModule scenarioHost 5 scenarioModule = some (M2, b) ∧
      R.map Prod.fst = (scenarioModule.functions.filter
        (fun F => decide (F.type ≠ remapFunctionType scenarioHost F.type))).map (fun F => F.id) ∧
      (∀ p ∈ R, ∀ G ∈ M2.functions, G.id ≠ p.1) ∧
      (∀ p ∈ R, M2.hasUseOf p.1 = false) ∧
      (∀ p ∈ R, ∃ N ∈ M2.functions, N.id = p.2) ∧
      M2.functions.map Function.unnamed =
        ((M1.functions.map Function.unnamed).filter
          (fun G => decide (G.id ∉ R.map Prod.fst))).map (Function.redirected R) ∧
      (∀ p ∈ R, redirect R (.function p.1) = .function p.2) ∧
      (∀ V : Value, (∀ p ∈ R, V ≠ .function p.1) → redirect R V = V) :=
  ⟨by decide, runOnModule_referential_integrity scenarioHost scenarioModule 5
    (by decide) (by decide)⟩

/-! ## Further claims -/

/-- C11: a replacement carries the interface of the original. For a module that
satisfies the host invariants (distinct identities, distinct names of the named
functions, one argument for each parameter, distinct names of the named
arguments) and a symbol table that never hands out a taken name, with enough
iterations allowed: every function `F` whose type the signature remapper changes
is paired in the worklist with a clone that, after the first loop, stands in the
module next to `F` under a name that is not the name of `F` when `F` is named;
after the pass the function with the identity of that clone has exactly the name
of `F`, the linkage of `F`, the type `remapFunctionType F.type`, as many arguments
as `F`, position by position the argument names of `F`, and the remapped
parameter types as argument types. -/
theorem replacement_carries_interface (H : Host) (M : Module) (fuel : Nat)
    (hH : H.Fresh) (hM : M.WellFormed) (hfuel : 2 * M.functions.length + 1 ≤ fuel) :
    ∃ (M1 : Module) (R : Replacements) (M2 : Module) (b : Bool),
      analyze H fuel M = some (M1, R) ∧ runOnModule H fuel M = some (M2, b) ∧
      ∀ F ∈ M.functions, F.type ≠ remapFunctionType H F.type →
        ∃ N1 ∈ M1.functions, ∃ NewF ∈ M2.functions,
          (F.id, NewF.id) ∈ R ∧ N1.id = NewF.id ∧ F ∈ M1.functions ∧
          (F.name ≠ "" → N1.name ≠ F.name) ∧
          NewF.name = F.name ∧ NewF.linkage = F.linkage ∧
          NewF.type = remapFunctionType H F.type ∧
          NewF.args.length = F.args.length ∧
          NewF.args.map (fun A => A.name) = F.args.map (fun A => A.name) ∧
          (∀ i : Nat, (NewF.args[i]?).map (fun A => A.name)
            = (F.args[i]?).map (fun A => A.name)) ∧
          NewF.args.map (fun A => A.type) = (remapFunctionType H F.type).params := by
  obtain ⟨hids, hnames, hargs⟩ := hM
  obtain ⟨h1, h2⟩ := runOnModule_eq H M fuel hfuel
  refine ⟨_, _, _, _, h1, h2, ?_⟩
  intro F hF hch
  obtain ⟨Mx, hw, hc, _⟩ := clonesOf_of_changed H M.functions M F hF hch
  have hnd1 := after_phase1_ids_nodup H M hids
  have hN1 : newFunction H Mx F ∈ M.functions ++ clonesOf H M.functions M :=
    List.mem_append_right _ hc
  obtain ⟨N2, hN2, hN2id, hN2name⟩ := commit_names H (worklistOf H M.functions M)
    { functions := M.functions ++ clonesOf H M.functions M }
    (worklistOf_fst_nodup H M hids) (worklistOf_snd_nodup H M) (worklistOf_separated H M)
    (by
      intro p hp
      have h : p.2 ∈ (worklistOf H M.functions M).map Prod.snd := List.mem_map_of_mem _ hp
      rw [worklistOf_snd] at h
      obtain ⟨N, hN, hid⟩ := List.mem_map.1 h
      exact ⟨N, List.mem_append_right _ hN, hid⟩)
    (after_phase1_names_free H hH M hids hnames) (F.id, Mx.freshId) hw
  have hname : N2.name = F.name := by
    rw [hN2name]
    exact getName_of_mem _ hnd1 F (List.mem_append_left _ hF)
  obtain ⟨G0, hG0, e1, e2, e3, e4⟩ := mem_commit_origin H _ _ N2 hN2
  have hG0N : G0 = newFunction H Mx F := by
    apply List.inj_on_of_nodup_map hnd1 hG0 hN1
    show G0.id = (newFunction H Mx F).id
    rw [newFunction_id, ← e1]
    exact hN2id
  rw [hG0N] at e2 e3 e4
  obtain ⟨ha1, ha2⟩ := newFunction_args H Mx F (hargs F hF).1 (hargs F hF).2
  rw [← e4] at ha1 ha2
  refine ⟨newFunction H Mx F, hN1, N2, hN2, ?_, ?_, List.mem_append_left _ hF, ?_, hname,
    e2.trans (newFunction_linkage H Mx F), e3.trans (newFunction_type H Mx F), ?_, ha1, ?_, ha2⟩
  · rw [hN2id]
    exact hw
  · rw [newFunction_id]
    exact hN2id.symm
  · intro h0 hsame
    rcases clonesOf_name H hH M.functions M (fun _ h => h) _ hc with h3 | h3
    · exact h0 (hsame.symm.trans h3)
    · apply h3
      rw [hsame]
      exact List.mem_map_of_mem (fun G => G.name) hF
  · have h5 := congrArg List.length ha1
    simpa using h5
  · intro i
    have h5 := congrArg (fun l : List String => l[i]?) ha1
    simpa using h5

/-- Witness of C11 on the scenario module, whose functions `foo` and `bar` are
both replaced, in the scenario environment. -/
theorem replacement_carries_interface_witness :
    scenarioHost.Fresh ∧ scenarioModule.WellFormed ∧
    ∃ (M1 : Module) (R : Replacements) (M2 : Module) (b : Bool),
      analyze scenarioHost 5 scenarioModule = some (M1, R) ∧
      runOnModule scenarioHost 5 scenarioModule = some (M2, b) ∧
      ∀ F ∈ scenarioModule.functions, F.type ≠ remapFunctionType scenarioHost F.type →
        ∃ N1 ∈ M1.functions, ∃ NewF ∈ M2.functions,
          (F.id, NewF.id) ∈ R ∧ N1.id = NewF.id ∧ F ∈ M1.functions ∧
          (F.name ≠ "" → N1.name ≠ F.name) ∧
          NewF.name = F.name ∧ NewF.linkage = F.linkage ∧
          NewF.type = remapFunctionType scenarioHost F.type ∧
          NewF.args.length = F.args.length ∧
          NewF.args.map (fun A => A.name) = F.args.map (fun A => A.name) ∧
          (∀ i : Nat, (NewF.args[i]?).map (fun A => A.name)
            = (F.args[i]?).map (fun A => A.name)) ∧
          NewF.args.map (fun A => A.type) = (remapFunctionType scenarioHost F.type).params :=
  ⟨scenarioHost_fresh, by decide,
   replacement_carries_interface scenarioHost scenarioModule 5 scenarioHost_fresh
    (by decide) (by decide)⟩

/-- C12 as stated fails: in the module `{foo, main}` the type of `main` is a fixed
point of the signature remapper, but `main` calls `foo`, which is replaced; after
the pass the function with the identity of `main` has its call redirected to the
clone of `foo`, so its body is not the body `main` had before the pass. -/
theorem unaffected_function_counterexample :
    callerMain ∈ callerModule.functions ∧
    remapFunctionType scenarioHost callerMain.type = callerMain.type ∧
    runOnModule scenarioHost 5 callerModule = some (callerResult, true) ∧
    callerMain ∉ callerResult.functions ∧
    (∀ G ∈ callerResult.functions, G.id = callerMain.id → G.body ≠ callerMain.body) := by
  decide

/-- C12 amended: for a module whose functions have distinct identities and a
function `G` of it whose type is a fixed point of the signature remapper, after
the pass the module holds a function with the identity, name, linkage, type and
arguments of `G`, whose body is the body of `G` with each operand redirected
along the worklist: an operand that is a replaced function is now its clone,
every other operand is as before. When no operand of `G` is a replaced function,
`G` itself is in the module after the pass. -/
theorem unaffected_function_kept (H : Host) (M : Module) (G : Function) (fuel : Nat)
    (hM : (M.functions.map (fun F => F.id)).Nodup) (hG : G ∈ M.functions)
    (hfix : remapFunctionType H G.type = G.type)
    (hfuel : 2 * M.functions.length + 1 ≤ fuel) :
    ∃ (M1 : Module) (R : Replacements) (M2 : Module) (b : Bool),
      analyze H fuel M = some (M1, R) ∧ runOnModule H fuel M = some (M2, b) ∧
      (∃ G2 ∈ M2.functions, G2.id = G.id ∧ G2.name = G.name ∧ G2.linkage = G.linkage ∧
        G2.type = G.type ∧ G2.args = G.args ∧
        G2.body = G.body.map
          (fun I => { I with operands := I.operands.map (redirect R) })) ∧
      (∀ p ∈ R, redirect R (.function p.1) = .function p.2) ∧
      (∀ V : Value, (∀ p ∈ R, V ≠ .function p.1) → redirect R V = V) ∧
      ((∀ I ∈ G.body, ∀ V ∈ I.operands, ∀ p ∈ R, V ≠ .function p.1) → G ∈ M2.functions) := by
  obtain ⟨h1, h2⟩ := runOnModule_eq H M fuel hfuel
  have hmem := mem_commit_redirected H (worklistOf H M.functions M)
    { functions := M.functions ++ clonesOf H M.functions M } G
    (List.mem_append_left _ hG) ((fixed_iff_not_listed H M hM G hG).2 hfix)
    (original_not_snd H M G hG)
  refine ⟨_, _, _, _, h1, h2, ⟨_, hmem, rfl, rfl, rfl, rfl, rfl, rfl⟩, ?_, ?_, ?_⟩
  · intro p hp
    exact redirect_fst _ p hp (worklistOf_fst_nodup H M hM) (worklistOf_separated H M)
  · intro V hV
    exact redirect_of_not_fst _ V hV
  · intro hno
    rw [redirected_eq_self _ G hno] at hmem
    exact hmem

/-- Witness of the amended C12 on `main` of the module `{foo, main}`. -/
theorem unaffected_function_kept_witness :
    ∃ (M1 : Module) (R : Replacements) (M2 : Module) (b : Bool),
      analyze scenarioHost 5 callerModule = some (M1, R) ∧
      runOnModule scenarioHost 5 callerModule = some (M2, b) ∧
      (∃ G2 ∈ M2.functions, G2.id = callerMain.id ∧ G2.name = callerMain.name ∧
        G2.linkage = callerMain.linkage ∧ G2.type = callerMain.type ∧
        G2.args = callerMain.args ∧
        G2.body = callerMain.body.map
          (fun I => { I with operands := I.operands.map (redirect R) })) ∧
      (∀ p ∈ R, redirect R (.function p.1) = .function p.2) ∧
      (∀ V : Value, (∀ p ∈ R, V ≠ .function p.1) → redirect R V = V) ∧
      ((∀ I ∈ callerMain.body, ∀ V ∈ I.operands, ∀ p ∈ R, V ≠ .function p.1) →
        callerMain ∈ M2.functions) :=
  unaffected_function_kept scenarioHost callerModule callerMain 5
    (by decide) (by decide) (by decide) (by decide)

/-- C13: idempotence of the pass. With enough iterations allowed, the first run
returns a module in which the type of every function is a fixed point of the
signature remapper; a second run on that module (with the same bound, or any
bound above its number of functions) records nothing, returns false and leaves
that module as it is. -/
theorem runOnModule_idempotent (H : Host) (M : Module) (fuel : Nat)
    (hfuel : 2 * M.functions.length + 1 ≤ fuel) :
    ∃ (M2 : Module) (b : Bool), runOnModule H fuel M = some (M2, b) ∧
      (∀ G ∈ M2.functions, remapFunctionType H G.type = G.type) ∧
      analyze H fuel M2 = some (M2, []) ∧
      runOnModule H fuel M2 = some (M2, false) ∧
      (∀ fuel2 : Nat, M2.functions.length + 1 ≤ fuel2 →
        runOnModule H fuel2 M2 = some (M2, false)) := by
  obtain ⟨_, h2⟩ := runOnModule_eq H M fuel hfuel
  have hfix := commit_fixed H (worklistOf H M.functions M)
    { functions := M.functions ++ clonesOf H M.functions M } (after_phase1_fixed_or_listed H M)
  have hlen : (commit H { functions := M.functions ++ clonesOf H M.functions M }
      (worklistOf H M.functions M)).functions.length + 1 ≤ fuel := by
    have h3 := commit_length_le H (worklistOf H M.functions M)
      { functions := M.functions ++ clonesOf H M.functions M }
    have h4 := clonesOf_length_le H M.functions M
    simp only [List.length_append] at h3
    omega
  exact ⟨_, _, h2, hfix, analyze_of_all_fixed H _ fuel hfix hlen,
    runOnModule_of_all_fixed H _ fuel hfix hlen,
    fun fuel2 h => runOnModule_of_all_fixed H _ fuel2 hfix h⟩

/-- Witness of C13 on the scenario module: the second run on `scenarioResult`
returns false and `scenarioResult` again. -/
theorem runOnModule_idempotent_witness :
    2 * scenarioModule.functions.length + 1 ≤ 5 ∧
    runOnModule scenarioHost 5 scenarioResult = some (scenarioResult, false) ∧
    ∃ (M2 : Module) (b : Bool), runOnModule scenarioHost 5 scenarioModule = some (M2, b) ∧
      (∀ G ∈ M2.functions, remapFunctionType scenarioHost G.type = G.type) ∧
      analyze scenarioHost 5 M2 = some (M2, []) ∧
      runOnModule scenarioHost 5 M2 = some (M2, false) ∧
      (∀ fuel2 : Nat, M2.functions.length + 1 ≤ fuel2 →
        runOnModule scenarioHost fuel2 M2 = some (M2, false)) :=
  ⟨by decide, by decide, runOnModule_idempotent scenarioHost scenarioModule 5 (by decide)⟩

/-- C14 as stated fails: in the scenario module `foo` calls `bar`; after the first
loop and before the second, `bar` is still in the module as it was, but the clone
of `foo` calls `bar` too, so the users of `bar` are no longer the users it had at
the start. -/
theorem two_phase_users_counterexample :
    scenarioBar ∈ scenarioModule.functions ∧
    scenarioModule.usersOf scenarioBar.id = [(0, 0)] ∧
    (analyze scenarioHost 5 scenarioModule).map (fun r => decide (scenarioBar ∈ r.1.functions))
      = some true ∧
    (analyze scenarioHost 5 scenarioModule).map (fun r => r.1.usersOf scenarioBar.id)
      = some [(0, 0), (2, 0)] ∧
    (analyze scenarioHost 5 scenarioModule).map (fun r => r.1.usersOf scenarioBar.id)
      ≠ some (scenarioModule.usersOf scenarioBar.id) := by
  decide

/-- C14 amended: with enough iterations allowed, the module reached after the
first loop and before the second is the module of the start with the clones
appended, so every function present at the start is still there, at its place,
with its name, linkage, type, arguments and body; every user it had is still a
user, and its other users are instructions of the clones; the clones have
identities no function of the start has, and the worklist pairs functions of the
start with clones; the module returned by the pass is the one the second loop
makes from this state, so every rename, redirection and erase comes after all
clones were created. -/
theorem two_phase_ordering (H : Host) (M : Module) (fuel : Nat)
    (hfuel : 2 * M.functions.length + 1 ≤ fuel) :
    ∃ (M1 : Module) (R : Replacements) (clones : List Function),
      analyze H fuel M = some (M1, R) ∧
      M1.functions = M.functions ++ clones ∧
      (∀ F : Nat, M1.usersOf F = M.usersOf F ++ (Module.mk clones).usersOf F) ∧
      (∀ N ∈ clones, ∀ G ∈ M.functions, G.id ≠ N.id) ∧
      (∀ p ∈ R, (∃ F ∈ M.functions, F.id = p.1) ∧ (∃ N ∈ clones, N.id = p.2)) ∧
      runOnModule H fuel M = some (commit H M1 R, decide (R.length > 0)) := by
  obtain ⟨h1, h2⟩ := runOnModule_eq H M fuel hfuel
  refine ⟨_, _, _, h1, rfl, fun F => ?_, ?_, ?_, h2⟩
  · have hM : M = Module.mk M.functions := rfl
    conv_rhs => rw [hM]
    exact usersOf_append _ _ F
  · intro N hN G hG hGN
    have h3 := M.lt_freshId G hG
    have h4 := clonesOf_fresh H _ _ N hN
    omega
  · intro p hp
    constructor
    · have h : p.1 ∈ (worklistOf H M.functions M).map Prod.fst := List.mem_map_of_mem _ hp
      rw [worklistOf_fst] at h
      obtain ⟨F, hF, hid⟩ := List.mem_map.1 h
      exact ⟨F, (List.mem_filter.1 hF).1, hid⟩
    · have h : p.2 ∈ (worklistOf H M.functions M).map Prod.snd := List.mem_map_of_mem _ hp
      rw [worklistOf_snd] at h
      obtain ⟨N, hN, hid⟩ := List.mem_map.1 h
      exact ⟨N, hN, hid⟩

/-- Witness of the amended C14 on the scenario module. -/
theorem two_phase_ordering_witness :
    2 * scenarioModule.functions.length + 1 ≤ 5 ∧
    ∃ (M1 : Module) (R : Replacements) (clones : List Function),
      analyze scenarioHost 5 scenarioModule = some (M1, R) ∧
      M1.functions = scenarioModule.functions ++ clones ∧
      (∀ F : Nat, M1.usersOf F = scenarioModule.usersOf F ++ (Module.mk clones).usersOf F) ∧
      (∀ N ∈ clones, ∀ G ∈ scenarioModule.functions, G.id ≠ N.id) ∧
      (∀ p ∈ R, (∃ F ∈ scenarioModule.functions, F.id = p.1) ∧ (∃ N ∈ clones, N.id = p.2)) ∧
      runOnModule scenarioHost 5 scenarioModule = some (commit scenarioHost M1 R, decide (R.length > 0)) :=
  ⟨by decide, two_phase_ordering scenarioHost scenarioModule 5 (by decide)⟩

/-- C15: clones are never cloned again. For a module of `n` functions of which
`k` have a type the signature remapper changes, the first loop makes `n + k`
iterations, one for each function present at the start and one for each clone it
appended: it does not end when at most `n + k` iterations are allowed, and it
ends when more are allowed. It then leaves the functions of the start followed
by `k` clones; every clone has a type that is a fixed point of the signature
remapper, an identity that no function of the start has, and is not the first
component of any worklist entry; the first components of the worklist are, in
order and once each, the functions of the start whose type changes; and when
the identities are distinct the module has `n` functions after the pass. -/
theorem analyze_never_reclones (H : Host) (M : Module) (fuel : Nat) :
    (fuel ≤ M.functions.length +
        (M.functions.filter (fun F => decide (F.type ≠ remapFunctionType H F.type))).length →
      analyze H fuel M = none ∧ runOnModule H fuel M = none) ∧
    (M.functions.length +
        (M.functions.filter (fun F => decide (F.type ≠ remapFunctionType H F.type))).length
        + 1 ≤ fuel →
      ∃ (M1 : Module) (R : Replacements) (M2 : Module) (b : Bool) (clones : List Function),
        analyze H fuel M = some (M1, R) ∧ runOnModule H fuel M = some (M2, b) ∧
        M1.functions = M.functions ++ clones ∧
        clones.length =
          (M.functions.filter (fun F => decide (F.type ≠ remapFunctionType H F.type))).length ∧
        (∀ N ∈ clones, remapFunctionType H N.type = N.type ∧ N.id ∉ R.map Prod.fst ∧
          ∀ G ∈ M.functions, G.id ≠ N.id) ∧
        R.map Prod.fst = (M.functions.filter
          (fun F => decide (F.type ≠ remapFunctionType H F.type))).map (fun F => F.id) ∧
        R.map Prod.snd = clones.map (fun N => N.id) ∧
        ((M.functions.map (fun G => G.id)).Nodup →
          M2.functions.length = M.functions.length)) := by
  constructor
  · intro hfuel
    have h := (analyze_iterations H M fuel).2 hfuel
    exact ⟨h, by simp [runOnModule, h]⟩
  · intro hfuel
    have h := (analyze_iterations H M fuel).1 hfuel
    refine ⟨_, _, commit H { functions := M.functions ++ clonesOf H M.functions M }
      (worklistOf H M.functions M), decide ((worklistOf H M.functions M).length > 0), _, h,
      by simp only [runOnModule, h], rfl, clonesOf_length H _ _, ?_, worklistOf_fst H _ _,
      worklistOf_snd H _ _, commit_after_phase1_length H M⟩
    intro N hN
    refine ⟨clonesOf_fixed H _ _ N hN, clone_not_listed H M N hN, fun G hG hGN => ?_⟩
    have h1 := M.lt_freshId G hG
    have h2 := clonesOf_fresh H _ _ N hN
    omega

/-- Witness of C15 on the module where `main` calls `foo`: two functions, one of
which changes, so three iterations are needed; with three allowed the loop does
not end, with four it ends, and the module has two functions after the pass. -/
theorem analyze_never_reclones_witness :
    (analyze scenarioHost 3 callerModule = none ∧ runOnModule scenarioHost 3 callerModule = none) ∧
    (∃ (M1 : Module) (R : Replacements) (M2 : Module) (b : Bool) (clones : List Function),
      analyze scenarioHost 4 callerModule = some (M1, R) ∧
      runOnModule scenarioHost 4 callerModule = some (M2, b) ∧
      M1.functions = callerModule.functions ++ clones ∧
      clones.length = (callerModule.functions.filter
        (fun F => decide (F.type ≠ remapFunctionType scenarioHost F.type))).length ∧
      (∀ N ∈ clones, remapFunctionType scenarioHost N.type = N.type ∧ N.id ∉ R.map Prod.fst ∧
        ∀ G ∈ callerModule.functions, G.id ≠ N.id) ∧
      R.map Prod.fst = (callerModule.functions.filter
        (fun F => decide (F.type ≠ remapFunctionType scenarioHost F.type))).map (fun F => F.id) ∧
      R.map Prod.snd = clones.map (fun N => N.id) ∧
      ((callerModule.functions.map (fun G => G.id)).Nodup →
        M2.functions.length = callerModule.functions.length)) :=
  ⟨(analyze_never_reclones scenarioHost callerModule 3).1 (by decide),
   (analyze_never_reclones scenarioHost callerModule 4).2 (by decide)⟩

/-- C16: the remapper changes nothing but address-space tags. For every type `T`,
erasing the address-space tags of `remapType T` gives the same type as erasing
those of `T`, with the same pointer depth and the same leaf under the pointers;
position by position, each address space of `remapType T` is the one of `T` or
the generic one. The same holds for a signature and its remapped signature,
which also has the same variadic flag and number of parameters. -/
theorem remapType_changes_only_address_spaces (H : Host) :
    (∀ T : IRType,
      (remapType H T).eraseAddressSpaces = T.eraseAddressSpaces ∧
      (remapType H T).pointerDepth = T.pointerDepth ∧
      (remapType H T).pointeeLeaf = T.pointeeLeaf ∧
      List.Forall₂ (fun b a => b = a ∨ b = H.Generic)
        (remapType H T).addressSpaces T.addressSpaces) ∧
    (∀ S : FunctionType,
      (remapFunctionType H S).toType.eraseAddressSpaces = S.toType.eraseAddressSpaces ∧
      (remapFunctionType H S).isVarArg = S.isVarArg ∧
      (remapFunctionType H S).params.length = S.params.length ∧
      List.Forall₂ (fun b a => b = a ∨ b = H.Generic)
        (remapFunctionType H S).toType.addressSpaces S.toType.addressSpaces) := by
  refine ⟨fun T => ⟨eraseAddressSpaces_remapType H T, pointerDepth_remapType H T,
    pointeeLeaf_remapType H T, addressSpaces_remapType H T⟩, fun S => ?_⟩
  rw [remapFunctionType_eq]
  refine ⟨?_, rfl, by simp, ?_⟩
  · simp [FunctionType.toType, IRType.eraseAddressSpaces, eraseAddressSpaces_remapType,
      eraseAddressSpacesList_map_remapType]
  · simp only [FunctionType.toType, IRType.addressSpaces]
    exact forall₂_append_or (addressSpaces_remapType H _) (addressSpacesList_map_remapType H _)

/-- C17: resulting function order. For a module whose functions have distinct
identities, with enough iterations allowed, the first loop appends the clones of
the functions whose type changes, in the order of those functions, the worklist
pairing each such function with its clone; the function list after the pass is,
names apart and operands redirected, the functions of the module whose type is
a fixed point, in their order, followed by those clones in their order. -/
theorem runOnModule_function_order (H : Host) (M : Module) (fuel : Nat)
    (hM : (M.functions.map (fun G => G.id)).Nodup)
    (hfuel : 2 * M.functions.length + 1 ≤ fuel) :
    ∃ (M1 : Module) (R : Replacements) (M2 : Module) (b : Bool) (clones : List Function),
      analyze H fuel M = some (M1, R) ∧ runOnModule H fuel M = some (M2, b) ∧
      M1.functions = M.functions ++ clones ∧
      List.Forall₂ (fun F N => N.type = remapFunctionType H F.type ∧ N.linkage = F.linkage)
        (M.functions.filter (fun F => decide (F.type ≠ remapFunctionType H F.type))) clones ∧
      R = List.zip ((M.functions.filter
          (fun F => decide (F.type ≠ remapFunctionType H F.type))).map (fun F => F.id))
        (clones.map (fun N => N.id)) ∧
      M2.functions.map Function.unnamed =
        ((M.functions.filter (fun F => decide (remapFunctionType H F.type = F.type)) ++
          clones).map Function.unnamed).map (Function.redirected R) ∧
      M2.functions.map (fun G => G.id) =
        (M.functions.filter (fun F => decide (remapFunctionType H F.type = F.type))).map
          (fun G => G.id) ++ clones.map (fun N => N.id) := by
  obtain ⟨h1, h2⟩ := runOnModule_eq H M fuel hfuel
  have hv := commit_after_phase1 H M hM
  refine ⟨_, _, _, _, _, h1, h2, rfl, ?_, worklistOf_eq_zip H M, hv, ?_⟩
  · refine List.Forall₂.imp ?_ (clonesOf_forall₂ H M.functions M)
    intro F N ⟨Mx, hN, _⟩
    rw [hN]
    exact ⟨newFunction_type H Mx F, newFunction_linkage H Mx F⟩
  · have h3 := congrArg (List.map (fun G : Function => G.id)) hv
    simp only [List.map_map] at h3
    have e1 : ((fun G : Function => G.id) ∘ Function.unnamed) = (fun G : Function => G.id) := rfl
    have e2 : ((fun G : Function => G.id) ∘
        Function.redirected (worklistOf H M.functions M) ∘ Function.unnamed)
        = (fun G : Function => G.id) := rfl
    rw [e1, e2, List.map_append] at h3
    exact h3

/-- Witness of C17 on the module `[foo, main]` where only `foo` changes: after the
pass the identities are those of `main` and then of the clone of `foo`. -/
theorem runOnModule_function_order_witness :
    (callerModule.functions.map (fun G => G.id)).Nodup ∧
    (runOnModule scenarioHost 5 callerModule).map (fun r => r.1.functions.map (fun G => G.id))
      = some [callerMain.id, 2] ∧
    ∃ (M1 : Module) (R : Replacements) (M2 : Module) (b : Bool) (clones : List Function),
      analyze scenarioHost 5 callerModule = some (M1, R) ∧
      runOnModule scenarioHost 5 callerModule = some (M2, b) ∧
      M1.functions = callerModule.functions ++ clones ∧
      List.Forall₂
        (fun F N => N.type = remapFunctionType scenarioHost F.type ∧ N.linkage = F.linkage)
        (callerModule.functions.filter
          (fun F => decide (F.type ≠ remapFunctionType scenarioHost F.type))) clones ∧
      R = List.zip ((callerModule.functions.filter
          (fun F => decide (F.type ≠ remapFunctionType scenarioHost F.type))).map (fun F => F.id))
        (clones.map (fun N => N.id)) ∧
      M2.functions.map Function.unnamed =
        ((callerModule.functions.filter
            (fun F => decide (remapFunctionType scenarioHost F.type = F.type)) ++
          clones).map Function.unnamed).map (Function.redirected R) ∧
      M2.functions.map (fun G => G.id) =
        (callerModule.functions.filter
          (fun F => decide (remapFunctionType scenarioHost F.type = F.type))).map
          (fun G => G.id) ++ clones.map (fun N => N.id) :=
  ⟨by decide, by decide,
   runOnModule_function_order scenarioHost callerModule 5 (by decide) (by decide)⟩

end StripJuliaAddrspaces
